import Mathlib

/-!
Verification development for the nix-sandwich delta substituter.

The Go sources are shallowly embedded: byte strings become `List Nat`
(every byte below 256), pure functions become Lean functions, the
streaming NAR expander/collapser pipeline becomes functions over lists of
parsed archive entries returning `Except`, and the substituter's HTTP
handler becomes a function producing an explicit trace of its observable
effects.  External processes (xz, gzip, the delta tools) are parameters
with round-trip hypotheses where a claim needs them.
-/

namespace NixSandwich

/-- Byte strings (file bodies, archive paths, store names) are lists of
naturals; every byte produced by the Go code is below 256. -/
abbrev Bytes := List Nat

/-- Bytes of an ASCII string literal (all literals in the sources are
ASCII, so code points and UTF-8 bytes coincide). -/
def bytesOfString (s : String) : Bytes := s.data.map Char.toNat

/-- Go `strings.HasSuffix` on byte strings. -/
def hasSuffixB (l suf : Bytes) : Bool := l.drop (l.length - suf.length) == suf

/-- Go `strings.TrimSuffix` on byte strings. -/
def stripSuffixB (l suf : Bytes) : Bytes :=
  if hasSuffixB l suf then l.take (l.length - suf.length) else l

theorem hasSuffixB_append (a s : Bytes) : hasSuffixB (a ++ s) s = true := by
  simp [hasSuffixB]

theorem stripSuffixB_append (a s : Bytes) : stripSuffixB (a ++ s) s = a := by
  simp [stripSuffixB, hasSuffixB_append]

theorem hasSuffixB_iff (l suf : Bytes) :
    hasSuffixB l suf = true ↔ ∃ a, l = a ++ suf := by
  constructor
  · intro h
    refine ⟨l.take (l.length - suf.length), ?_⟩
    simp only [hasSuffixB, beq_iff_eq] at h
    conv_lhs => rw [← List.take_append_drop (l.length - suf.length) l]
    rw [h]
  · rintro ⟨a, rfl⟩; exact hasSuffixB_append a suf

/-- Little-endian decimal digit bytes of a natural number, with
structural fuel (any fuel above the value itself is enough). -/
def natDecRevAux : Nat → Nat → Bytes
  | 0, _ => []
  | fuel + 1, n =>
    if n < 10 then [48 + n]
    else (48 + n % 10) :: natDecRevAux fuel (n / 10)

def natDecRev (n : Nat) : Bytes := natDecRevAux (n + 1) n

/-- ASCII decimal rendering of a natural number (Go `%d` on a
non-negative value). -/
def natDec (n : Nat) : Bytes := (natDecRev n).reverse

def isDigitB (c : Nat) : Bool := 48 ≤ c && c ≤ 57

/-- Value of a big-endian sequence of ASCII decimal digits. -/
def digitsVal (l : Bytes) : Nat := l.foldl (fun acc c => acc * 10 + (c - 48)) 0

theorem natDecRevAux_fuel (n : Nat) : ∀ f f', n < f → n < f' →
    natDecRevAux f n = natDecRevAux f' n := by
  induction n using Nat.strong_induction_on with
  | _ n ih =>
    intro f f' hf hf'
    match f, f' with
    | f + 1, f' + 1 =>
      rw [natDecRevAux, natDecRevAux]
      by_cases h10 : n < 10
      · rw [if_pos h10, if_pos h10]
      · rw [if_neg h10, if_neg h10]
        have hlt : n / 10 < n := Nat.div_lt_self (by omega) (by omega)
        rw [ih (n / 10) hlt f f' (by omega) (by omega)]

theorem natDecRev_eq (n : Nat) :
    natDecRev n = if n < 10 then [48 + n] else (48 + n % 10) :: natDecRev (n / 10) := by
  rw [natDecRev, natDecRevAux]
  by_cases h10 : n < 10
  · rw [if_pos h10, if_pos h10]
  · rw [if_neg h10, if_neg h10, natDecRev]
    have hlt : n / 10 < n := Nat.div_lt_self (by omega) (by omega)
    rw [natDecRevAux_fuel (n / 10) n (n / 10 + 1) (by omega) (by omega)]

theorem natDecRev_digits (n : Nat) : ∀ c ∈ natDecRev n, isDigitB c = true := by
  induction n using Nat.strong_induction_on with
  | _ n ih =>
    intro c hc
    rw [natDecRev_eq] at hc
    by_cases h10 : n < 10
    · rw [if_pos h10] at hc
      simp only [List.mem_singleton] at hc
      subst hc; simp [isDigitB]; omega
    · rw [if_neg h10] at hc
      rcases List.mem_cons.mp hc with rfl | hc
      · have := Nat.mod_lt n (show 0 < 10 by omega)
        simp [isDigitB]; omega
      · exact ih (n / 10) (Nat.div_lt_self (by omega) (by omega)) c hc

theorem natDecRev_ne_nil (n : Nat) : natDecRev n ≠ [] := by
  rw [natDecRev_eq]
  split <;> simp

theorem natDec_digits (n : Nat) : ∀ c ∈ natDec n, isDigitB c = true := by
  intro c hc
  exact natDecRev_digits n c (List.mem_reverse.mp hc)

theorem natDec_ne_nil (n : Nat) : natDec n ≠ [] := by
  simp [natDec, natDecRev_ne_nil]

theorem digitsVal_append (l r : Bytes) :
    digitsVal (l ++ r) = r.foldl (fun acc c => acc * 10 + (c - 48)) (digitsVal l) := by
  simp [digitsVal, List.foldl_append]

theorem digitsVal_natDec (n : Nat) : digitsVal (natDec n) = n := by
  suffices h : ∀ m acc, List.foldl (fun acc c => acc * 10 + (c - 48)) acc (natDec m)
      = acc * 10 ^ (natDec m).length + m by
    have := h n 0; simpa [digitsVal] using this
  intro m
  induction m using Nat.strong_induction_on with
  | _ m ih =>
    intro acc
    by_cases h10 : m < 10
    · rw [natDec, natDecRev_eq, if_pos h10]
      simp only [List.reverse_singleton, List.foldl_cons, List.foldl_nil,
        List.length_singleton, pow_one]
      omega
    · rw [natDec, natDecRev_eq, if_neg h10]
      simp only [List.reverse_cons, List.foldl_append, List.foldl_cons, List.foldl_nil,
        List.length_append, List.length_cons, List.length_nil]
      rw [show (natDecRev (m / 10)).reverse = natDec (m / 10) from rfl,
        ih (m / 10) (Nat.div_lt_self (by omega) (by omega)) acc]
      have h10' : 48 + m % 10 - 48 = m % 10 := by omega
      rw [h10']
      rw [pow_succ]
      have := Nat.div_add_mod m 10
      ring_nf
      omega

/-- Little-endian 32-bit word from the first four bytes
(Go `binary.LittleEndian.Uint32`). -/
def le32 (l : Bytes) : Nat :=
  l.getD 0 0 + 256 * l.getD 1 0 + 65536 * l.getD 2 0 + 16777216 * l.getD 3 0

/-- Go `int(x)` of an unsigned 64-bit quantity: two's-complement wrap to
a signed 64-bit integer. -/
def toInt64 (n : Nat) : Int :=
  if n % 2 ^ 64 < 2 ^ 63 then ((n % 2 ^ 64 : Nat) : Int)
  else ((n % 2 ^ 64 : Nat) : Int) - 2 ^ 64

/-- Go shift-left on `uint64` (result truncated mod 2^64). -/
def shl64 (x s : Nat) : Nat := (x <<< s) % 2 ^ 64

/-! ## SHA-256 (Go `crypto/sha256`) and base64 (Go `encoding/base64`)

The differ's cache key hashes a short preimage with SHA-256 and encodes a
prefix of the digest with the unpadded URL-safe base64 alphabet.  Both
are implemented here executably; 32-bit words are naturals reduced
mod 2^32. -/

def m32 : Nat := 4294967296

def add32 (a b : Nat) : Nat := (a + b) % m32

def rotr32 (x n : Nat) : Nat := ((x >>> n) ||| (x <<< (32 - n))) % m32

def sha256K : List Nat :=
  [1116352408, 1899447441, 3049323471, 3921009573,
   961987163, 1508970993, 2453635748, 2870763221,
   3624381080, 310598401, 607225278, 1426881987,
   1925078388, 2162078206, 2614888103, 3248222580,
   3835390401, 4022224774, 264347078, 604807628,
   770255983, 1249150122, 1555081692, 1996064986,
   2554220882, 2821834349, 2952996808, 3210313671,
   3336571891, 3584528711, 113926993, 338241895,
   666307205, 773529912, 1294757372, 1396182291,
   1695183700, 1986661051, 2177026350, 2456956037,
   2730485921, 2820302411, 3259730800, 3345764771,
   3516065817, 3600352804, 4094571909, 275423344,
   430227734, 506948616, 659060556, 883997877,
   958139571, 1322822218, 1537002063, 1747873779,
   1955562222, 2024104815, 2227730452, 2361852424,
   2428436474, 2756734187, 3204031479, 3329325298]

def sha256H0 : List Nat :=
  [1779033703, 3144134277, 1013904242, 2773480762,
   1359893119, 2600822924, 528734635, 1541459225]

/-- Big-endian bytes of a 64-bit quantity. -/
def be64 (n : Nat) : Bytes :=
  [n >>> 56 % 256, n >>> 48 % 256, n >>> 40 % 256, n >>> 32 % 256,
   n >>> 24 % 256, n >>> 16 % 256, n >>> 8 % 256, n % 256]

/-- Big-endian bytes of a 32-bit word. -/
def be32 (n : Nat) : Bytes := [n >>> 24 % 256, n >>> 16 % 256, n >>> 8 % 256, n % 256]

/-- Merkle–Damgård padding: a 0x80 byte, zeros to 56 mod 64, then the
bit length as a big-endian 64-bit quantity. -/
def sha256pad (msg : Bytes) : Bytes :=
  msg ++ 128 :: List.replicate ((119 - msg.length % 64) % 64) 0 ++ be64 ((8 * msg.length) % 2 ^ 64)

/-- Big-endian 32-bit words of a byte string (length a multiple of 4). -/
def toWords : Bytes → List Nat
  | a :: b :: c :: d :: rest => (((a * 256 + b) * 256 + c) * 256 + d) :: toWords rest
  | _ => []

/-- Extend a 16-word block to the 64-word message schedule: append `k`
words, each computed from the last 16 appended-so-far. -/
def extendW (w : List Nat) : Nat → List Nat
  | 0 => w
  | k + 1 =>
    let i := w.length
    let x15 := w.getD (i - 15) 0
    let x2 := w.getD (i - 2) 0
    let s0 := (rotr32 x15 7 ^^^ rotr32 x15 18 ^^^ (x15 >>> 3)) % m32
    let s1 := (rotr32 x2 17 ^^^ rotr32 x2 19 ^^^ (x2 >>> 10)) % m32
    extendW (w ++ [(w.getD (i - 16) 0 + s0 + w.getD (i - 7) 0 + s1) % m32]) k

/-- One SHA-256 round: state is the 8-word working vector. -/
def sha256Round (s : List Nat) (kw : Nat × Nat) : List Nat :=
  match s with
  | [a, b, c, d, e, f, g, hh] =>
    let s1 := rotr32 e 6 ^^^ rotr32 e 11 ^^^ rotr32 e 25
    let ch := (e &&& f) ^^^ ((m32 - 1 - e) &&& g)
    let t1 := (hh + s1 + ch + kw.1 + kw.2) % m32
    let s0 := rotr32 a 2 ^^^ rotr32 a 13 ^^^ rotr32 a 22
    let mj := (a &&& b) ^^^ (a &&& c) ^^^ (b &&& c)
    let t2 := (s0 + mj) % m32
    [add32 t1 t2, a, b, c, add32 d t1, e, f, g]
  | _ => s

/-- Compress one 16-word block into the hash state. -/
def sha256Compress (st ws : List Nat) : List Nat :=
  let w := extendW ws 48
  let fin := (w.zip sha256K).foldl sha256Round st
  st.zipWith add32 fin

/-- Fold all 16-word blocks of the padded message. -/
def sha256Blocks : Nat → List Nat → List Nat → List Nat
  | 0, _, st => st
  | _ + 1, [], st => st
  | fuel + 1, a :: l, st =>
    sha256Blocks fuel ((a :: l).drop 16) (sha256Compress st ((a :: l).take 16))

/-- SHA-256 digest (32 bytes) of a byte string. -/
def sha256 (msg : Bytes) : Bytes :=
  let ws := toWords (sha256pad msg)
  (sha256Blocks ws.length ws sha256H0).flatMap be32

def b64urlAlphabet : List Char :=
  "ABCDEFGHIJKLMNOPQRSTUVWXYZabcdefghijklmnopqrstuvwxyz0123456789-_".data

/-- Unpadded URL-safe base64 characters of a byte string
(Go `base64.RawURLEncoding`). -/
def base64urlChars : Bytes → List Char
  | [] => []
  | [a] => [b64urlAlphabet.getD (a >>> 2) 'A', b64urlAlphabet.getD ((a &&& 3) <<< 4) 'A']
  | [a, b] =>
    [b64urlAlphabet.getD (a >>> 2) 'A',
     b64urlAlphabet.getD (((a &&& 3) <<< 4) ||| (b >>> 4)) 'A',
     b64urlAlphabet.getD ((b &&& 15) <<< 2) 'A']
  | a :: b :: c :: rest =>
    b64urlAlphabet.getD (a >>> 2) 'A' ::
    b64urlAlphabet.getD (((a &&& 3) <<< 4) ||| (b >>> 4)) 'A' ::
    b64urlAlphabet.getD (((b &&& 15) <<< 2) ||| (c >>> 6)) 'A' ::
    b64urlAlphabet.getD (c &&& 63) 'A' :: base64urlChars rest

/-! ## Differ request and cache key (`cacheKey` in the sources)

`differRequest` carries the fields of the Go struct of the same name;
all string fields are ASCII in practice, so hashing the code points as
bytes coincides with hashing the Go string bytes. -/

structure differRequest where
  reqNarPath : String
  baseStorePath : String
  acceptAlgos : List String
  narFilter : String
  upstream : String
  baseNarSize : Nat
  reqNarSize : Nat
  reqName : String
deriving DecidableEq, Repr

/-- The newline-terminated lines written into the SHA-256 state by
`cacheKey` (src/catalog.go, second unit): `up=`, `req=`, `base=`,
`sizes=`, `algo=`, and `filter=` only when the filter is non-empty.
The compression level is nowhere in the preimage. -/
def cacheKeyPreimage (req : differRequest) (algo : String) : Bytes :=
  bytesOfString ("up=" ++ req.upstream ++ "\n"
    ++ "req=" ++ req.reqNarPath ++ "\n"
    ++ "base=" ++ req.baseStorePath ++ "\n"
    ++ "sizes=" ++ toString req.baseNarSize ++ "," ++ toString req.reqNarSize ++ "\n"
    ++ "algo=" ++ algo ++ "\n"
    ++ (if req.narFilter.length > 0 then "filter=" ++ req.narFilter ++ "\n" else ""))

/-- `cacheKey`: `"v1-"` followed by the first 36 characters of the
unpadded URL-safe base64 encoding of the SHA-256 of the preimage. -/
def cacheKey (req : differRequest) (algo : String) : String :=
  ⟨'v' :: '1' :: '-' :: (base64urlChars (sha256 (cacheKeyPreimage req algo))).take 36⟩

/-! ## xz container parsing (`parseXz`, src/narexpander.go)

`parseXz` recovers the compression options and total uncompressed size
from an in-memory xz file.  Go distinguishes two failure modes: an
explicit `errBadXzData` return (the caller then passes the file through
unexpanded) and an out-of-bounds index on a truncated buffer, which
panics; both are explicit here. -/

inductive xzFail
  | badData
  | outOfBounds
deriving DecidableEq, Repr

structure xzInfo where
  uncompressedSize : Nat
  options : List Bytes
deriving DecidableEq, Repr

/-- Read a byte, or fail the way a Go index out of range does. -/
def getB (b : Bytes) (i : Nat) : Except xzFail Nat :=
  match b[i]? with
  | some v => .ok v
  | none => .error .outOfBounds

def readVarintAux : Bytes → Nat → Nat → Except xzFail (Nat × Nat)
  | [], _, _ => .error .outOfBounds
  | c :: rest, l, acc =>
    let acc := acc ||| shl64 (c &&& 0x7f) (l * 7)
    if c &&& 0x80 == 0 then .ok (acc, l + 1)
    else readVarintAux rest (l + 1) acc

/-- Go `readVarint(b)`: little-endian base-128 varint accumulated in a
`uint64`; running past the end of the buffer panics in Go. -/
def readVarint (b : Bytes) : Except xzFail (Nat × Nat) := readVarintAux b 0 0

/-- Decode the 6-bit lzma2 `dict` property byte into the
`--lzma2=dict=` option: values above 40 are rejected, 40 keeps the
preset `int(1<<32 - 1)`, and smaller values use
`(2 | (bits & 1)) << (bits/2 + 11)`. -/
def lzma2DictOpt (b : Nat) : Except xzFail Bytes :=
  let bits := b &&& 0x3F
  if bits > 40 then .error .badData
  else
    .ok (bytesOfString "--lzma2=dict="
      ++ natDec (if bits < 40 then (2 ||| (bits &&& 1)) <<< (bits / 2 + 11) else 4294967295))

/-- BCJ filter ids 0x04–0x0A map to single-switch options. -/
def bcjOpt (filterId : Nat) : Bytes :=
  bytesOfString (if filterId = 4 then "--x86" else if filterId = 5 then "--powerpc"
    else if filterId = 6 then "--ia64" else if filterId = 7 then "--arm"
    else if filterId = 8 then "--armthumb" else if filterId = 9 then "--sparc" else "--arm64")

/-- The filter-flags loop of `parseXz`: decode `nf` filter records of the
first block header starting at offset `i`, appending recovered options. -/
def parseFilters (buf : Bytes) : Nat → Nat → List Bytes → Except xzFail (Nat × List Bytes)
  | i, 0, opts => .ok (i, opts)
  | i, nf + 1, opts => do
    let (filterId, l) ← readVarint (buf.drop i)
    let i := i + l
    let (propSize, l2) ← readVarint (buf.drop i)
    let i := i + l2
    let opts ←
      if filterId == 0x21 then do
        if propSize ≠ 1 then throw .badData
        let p ← getB buf i
        let o ← lzma2DictOpt p
        pure (opts ++ [o])
      else if 4 ≤ filterId && filterId ≤ 0xA then pure (opts ++ [bcjOpt filterId])
      else if filterId == 3 then do
        if propSize ≠ 1 then throw .badData
        let p ← getB buf i
        pure (opts ++ [bytesOfString "--delta=dist=" ++ natDec ((p + 1) % 256)])
      else pure opts
    parseFilters buf (i + propSize) nf opts

def xzMagic : Bytes := [0xFD, 0x37, 0x7A, 0x58, 0x5A, 0x00]

/-- The stream-flags check type byte maps to a `--check=` option. -/
def checkOpt (checkType : Nat) : Except xzFail Bytes :=
  if checkType = 0x00 then .ok (bytesOfString "--check=none")
  else if checkType = 0x01 then .ok (bytesOfString "--check=crc32")
  else if checkType = 0x04 then .ok (bytesOfString "--check=crc64")
  else if checkType = 0x0A then .ok (bytesOfString "--check=sha256")
  else .error .badData

/-- Walk the index records, summing uncompressed sizes into an `int64`
accumulator (wraps mod 2^64). -/
def indexRecords (index : Bytes) : Nat → Nat → Nat → Except xzFail Nat
  | _, 0, total => .ok total
  | i, nRec + 1, total => do
    let (_, l) ← readVarint (index.drop i)
    let i := i + l
    let (u, l2) ← readVarint (index.drop i)
    indexRecords index (i + l2) nRec ((total + u) % 2 ^ 64)

/-- The footer/index part of `parseXz`: validate the footer magic and
stream-flags copy, locate the index through the backward size, and sum
the per-record uncompressed sizes. -/
def parseXzFooter (buf : Bytes) (opts : List Bytes) : Except xzFail xzInfo := do
  let e := buf.length
  if buf.drop (e - 2) ≠ [0x59, 0x5A] ∨ (buf.drop (e - 4)).take 2 ≠ (buf.drop 6).take 2 then
    throw .badData
  let bwSize := ((le32 (buf.drop (e - 8)) + 1) * 4) % 2 ^ 32
  if e - 12 - bwSize < 12 then throw .badData
  let index := (buf.drop (e - 12 - bwSize)).take bwSize
  let i0 ← getB index 0
  if i0 ≠ 0 then throw .badData
  let (nRec, l) ← readVarint (index.drop 1)
  let total ← indexRecords index (1 + l) nRec 0
  return { uncompressedSize := total, options := opts }

/-- `parseXz` (src/narexpander.go): validate magic, recover
`--check=`/filter options from the stream flags and the first block
header, then walk the footer and index. -/
def parseXz (buf : Bytes) : Except xzFail xzInfo := do
  if buf.length < 32 ∨ buf.take 6 ≠ xzMagic then throw .badData
  let c7 ← getB buf 7
  let copt ← checkOpt (c7 &&& 0xf)
  let bFlags ← getB buf 13
  let nFilters := (bFlags &&& 0x03) + 1
  let i := 14
  let i ←
    if bFlags &&& 0x40 ≠ 0 then do
      let (_, l) ← readVarint (buf.drop i); pure (i + l)
    else pure i
  let i ←
    if bFlags &&& 0x80 ≠ 0 then do
      let (_, l) ← readVarint (buf.drop i); pure (i + l)
    else pure i
  let (_, opts) ← parseFilters buf i nFilters [copt]
  parseXzFooter buf opts

/-! ## Expander metadata records (`narExpanderMeta`, src/narexpander.go)

The expander serializes a metadata record with Go `encoding/json`
(field order `a`, `o`, `c`, with `o` omitted when empty) and the
collapser decodes it again.  The encoder below produces exactly the
bytes `json.Marshal` produces for the records the expander emits (whose
strings never need escaping); the decoder accepts exactly those
canonical encodings. -/

structure narExpanderMeta where
  algo : Bytes
  options : List Bytes
  compressedSize : Nat
deriving DecidableEq, Repr

def quoteB (s : Bytes) : Bytes := 34 :: s ++ [34]

def commaJoin : List Bytes → Bytes
  | [] => []
  | [x] => x
  | x :: y :: r => x ++ 44 :: commaJoin (y :: r)

/-- Bytes of `json.Marshal` for a metadata record. -/
def metaJson (m : narExpanderMeta) : Bytes :=
  123 :: bytesOfString "\"a\":" ++ quoteB m.algo
    ++ (if m.options.isEmpty then []
        else bytesOfString ",\"o\":[" ++ commaJoin (m.options.map quoteB) ++ [93])
    ++ bytesOfString ",\"c\":" ++ natDec m.compressedSize ++ [125]

/-- Expect the literal bytes `lit` at the front of `b`. -/
def dropLit : Bytes → Bytes → Option Bytes
  | [], b => some b
  | c :: lit, d :: b => if d = c then dropLit lit b else none
  | _ :: _, [] => none

/-- Scan the content of a JSON string up to its closing quote. -/
def scanQuote : Bytes → Option (Bytes × Bytes)
  | [] => none
  | c :: r =>
    if c = 34 then some ([], r)
    else match scanQuote r with
      | some (s, rest) => some (c :: s, rest)
      | none => none

def parseQuoted (b : Bytes) : Option (Bytes × Bytes) :=
  match b with
  | c :: r => if c = 34 then scanQuote r else none
  | [] => none

theorem scanQuote_length : ∀ b s r, scanQuote b = some (s, r) → r.length < b.length := by
  intro b
  induction b with
  | nil => intro s r h; simp [scanQuote] at h
  | cons c cs ih =>
    intro s r h
    rw [scanQuote] at h
    split at h
    · simp only [Option.some.injEq, Prod.mk.injEq] at h
      obtain ⟨-, hr⟩ := h
      subst hr; simp
    · split at h
      · next s' rest heq =>
        simp only [Option.some.injEq, Prod.mk.injEq] at h
        obtain ⟨-, hr⟩ := h
        subst hr
        have := ih s' rest heq
        simp only [List.length_cons]
        omega
      · simp at h

theorem parseQuoted_length (b s r : Bytes) (h : parseQuoted b = some (s, r)) :
    r.length < b.length := by
  match b with
  | [] => simp [parseQuoted] at h
  | c :: cs =>
    rw [parseQuoted] at h
    split at h
    · have := scanQuote_length cs s r h
      simp only [List.length_cons]
      omega
    · simp at h

/-- Parse the non-empty `["..",".."]` option array after its opening
bracket: quoted strings separated by commas, ended by `]`.  Structural
fuel; one unit per array element is enough. -/
def parseOptsAux : Nat → Bytes → Option (List Bytes × Bytes)
  | 0, _ => none
  | fuel + 1, b =>
    match parseQuoted b with
    | none => none
    | some (s, r) =>
      match r with
      | 44 :: r' =>
        match parseOptsAux fuel r' with
        | some (ss, rest) => some (s :: ss, rest)
        | none => none
      | 93 :: r' => some ([s], r')
      | _ => none

def parseOpts (b : Bytes) : Option (List Bytes × Bytes) := parseOptsAux b.length b

def parseDigits (b : Bytes) : Option (Nat × Bytes) :=
  let ds := b.takeWhile isDigitB
  if ds.isEmpty then none else some (digitsVal ds, b.dropWhile isDigitB)

/-- Decode a canonical metadata record (the collapser's
`json.NewDecoder(nr).Decode(&meta)`; the only encodings the program ever
has to decode are the canonical ones `metaJson` produces). -/
def metaParse (b : Bytes) : Option narExpanderMeta :=
  match dropLit (123 :: bytesOfString "\"a\":") b with
  | none => none
  | some r =>
    match parseQuoted r with
    | none => none
    | some (algo, r) =>
      match dropLit (bytesOfString ",\"o\":[") r with
      | some r2 =>
        match parseOpts r2 with
        | none => none
        | some (opts, r3) =>
          match dropLit (bytesOfString ",\"c\":") r3 with
          | none => none
          | some r4 =>
            match parseDigits r4 with
            | none => none
            | some (c, r5) => if r5 = [125] then some ⟨algo, opts, c⟩ else none
      | none =>
        match dropLit (bytesOfString ",\"c\":") r with
        | none => none
        | some r4 =>
          match parseDigits r4 with
          | none => none
          | some (c, r5) => if r5 = [125] then some ⟨algo, [], c⟩ else none

/-! ## NAR expander / collapser (`ExpandNar` / `CollapseNar`)

The Go pipeline parses the canonical NAR byte stream into entries,
transforms them, and re-serializes; reader and writer come from the
external go-nix library, so the transform is embedded at the
parsed-entry level.  A `narEnt` carries the header fields
(`nar.Header`: type, path, link target, executable bit, declared size)
together with the body bytes; the NAR reader always delivers exactly
`size` body bytes for a regular entry.  Stream failures (an error pushed
down the pipe) are `Except.error`. -/

inductive entType | dir | symlink | regular
deriving DecidableEq, Repr

deriving instance DecidableEq for Except

structure narEnt where
  typ : entType
  path : Bytes
  linkTarget : Bytes
  executable : Bool
  size : Nat
  data : Bytes
deriving DecidableEq, Repr

/-- The external compressors the expander/collapser shells out to:
`xz -dc`, `xz -c <options>`, `gzip -ndc`, `gzip -nc`.  They are
parameters of the embedding; round-trip facts about them are hypotheses
of the theorems that need them. -/
structure extTools where
  xzD : Bytes → Bytes
  xzC : List Bytes → Bytes → Bytes
  gzD : Bytes → Bytes
  gzC : Bytes → Bytes

def narExpMetaSuffix : Bytes := bytesOfString "\x01_exp1meta_"

def narExpDataSuffix : Bytes := bytesOfString "\x01_exp2data_"

def extXz : Bytes := bytesOfString ".xz"

def extGz : Bytes := bytesOfString ".gz"

/-- The strict 10-byte gate of `expandGz`: gzip magic, deflate, no
flags, zero mtime, Unix origin. -/
def gzStrictHeader : Bytes := [0x1f, 0x8b, 8, 0, 0, 0, 0, 0, 0, 3]

/-- One step of `readAndExpand` (src/narexpander.go lines 112-135 with
`expandXz`/`expandGz`): directories and symlinks pass through; a regular
`.xz` entry whose container parses is replaced by a metadata entry plus
the decompressed data entry (a parse failure passes it through, an
out-of-bounds panic kills the stream); a regular `.gz` entry is replaced
only when the strict header gate matches, taking the uncompressed size
from the trailing little-endian 32-bit field; everything else passes
through. -/
def expandEntry (t : extTools) (e : narEnt) : Except String (List narEnt) :=
  if e.typ = .dir ∨ e.typ = .symlink then .ok [e]
  else if hasSuffixB e.path extXz then
    match parseXz e.data with
    | .error .outOfBounds => .error "panic: index out of range"
    | .error .badData => .ok [e]
    | .ok info =>
      let md := metaJson ⟨bytesOfString "xz", info.options, e.size⟩
      .ok [{ e with path := e.path ++ narExpMetaSuffix, size := md.length, data := md },
           { e with path := e.path ++ narExpDataSuffix, size := info.uncompressedSize,
                    data := t.xzD e.data }]
  else if hasSuffixB e.path extGz then
    if e.data.length < 18 ∨ e.data.take 10 ≠ gzStrictHeader then .ok [e]
    else
      let md := metaJson ⟨bytesOfString "gz", [], e.size⟩
      .ok [{ e with path := e.path ++ narExpMetaSuffix, size := md.length, data := md },
           { e with path := e.path ++ narExpDataSuffix,
                    size := le32 (e.data.drop (e.data.length - 4)), data := t.gzD e.data }]
  else .ok [e]

/-- The `readAndExpand` loop over the whole entry stream. -/
def readAndExpand (t : extTools) : List narEnt → Except String (List narEnt)
  | [] => .ok []
  | e :: rest => do
    let out ← expandEntry t e
    let outRest ← readAndExpand t rest
    return out ++ outRest

/-- `writeEnts`: serialize the entries back to a NAR stream; `ioCopy`
fails the stream if a regular entry's body does not deliver exactly the
declared size. -/
def writeEnts (l : List narEnt) : Except String (List narEnt) :=
  if l.all (fun e => e.typ ≠ .regular || e.data.length == e.size) then .ok l
  else .error "ExpandNar: expected bytes mismatch"

/-- `readAndCollapse` (src/narexpander.go lines 251-310): directories
and symlinks pass through; a regular entry ending in the meta suffix has
its JSON decoded, must be immediately followed by an entry ending in the
data suffix, and the pair is replaced by one entry at the original path
with the declared compressed size, recompressed with `xz -c <options>`
or `gzip -nc`; unknown algorithms and missing data entries fail the
stream; everything else passes through. -/
def readAndCollapse (t : extTools) : List narEnt → Except String (List narEnt)
  | [] => .ok []
  | [e] =>
    if e.typ = .dir ∨ e.typ = .symlink then .ok [e]
    else if hasSuffixB e.path narExpMetaSuffix then
      match metaParse e.data with
      | none => .error "json decode error"
      | some _ => .error "unexpected EOF"
    else .ok [e]
  | e :: d :: rest =>
    if e.typ = .dir ∨ e.typ = .symlink then
      (readAndCollapse t (d :: rest)).map (e :: ·)
    else if hasSuffixB e.path narExpMetaSuffix then
      match metaParse e.data with
      | none => .error "json decode error"
      | some m =>
        if ¬ hasSuffixB d.path narExpDataSuffix then .error "bad expanded nar"
        else if m.algo = bytesOfString "xz" then
          (readAndCollapse t rest).map
            ({ d with path := stripSuffixB d.path narExpDataSuffix, size := m.compressedSize,
                      data := t.xzC m.options d.data } :: ·)
        else if m.algo = bytesOfString "gz" then
          (readAndCollapse t rest).map
            ({ d with path := stripSuffixB d.path narExpDataSuffix, size := m.compressedSize,
                      data := t.gzC d.data } :: ·)
        else .error "unexpected algo"
    else (readAndCollapse t (d :: rest)).map (e :: ·)

/-- `ExpandNar`: the expanding reader goroutine feeding the serializing
writer goroutine. -/
def ExpandNar (t : extTools) (l : List narEnt) : Except String (List narEnt) :=
  readAndExpand t l >>= writeEnts

/-- `CollapseNar`: the collapsing reader goroutine feeding the
serializing writer goroutine. -/
def CollapseNar (t : extTools) (l : List narEnt) : Except String (List narEnt) :=
  readAndCollapse t l >>= writeEnts

/-! ## Base catalog (`findBase`, src/catalog.go)

The catalog is a published btree snapshot of `btItem` records ordered by
`itemLess`; here it is the ascending list of its items.  `AscendRange`
iterates the items in `[lo, hi)`. -/

structure btItem where
  rest : Bytes
  hash : Bytes
  sys : Nat
deriving DecidableEq, Repr

/-- Go byte-string comparison `a < b`. -/
def ltB : Bytes → Bytes → Bool
  | [], [] => false
  | [], _ :: _ => true
  | _ :: _, [] => false
  | a :: as, b :: bs => if a < b then true else if a = b then ltB as bs else false

/-- `itemLess`: order by `rest`, then by the 20-byte hash. -/
def itemLess (a b : btItem) : Bool :=
  ltB a.rest b.rest || (a.rest == b.rest && ltB a.hash b.hash)

def zeroHash : Bytes := List.replicate 20 0

def findDashesAux : Bytes → Nat → List Nat
  | [], _ => []
  | c :: r, i => if c = 45 then i :: findDashesAux r (i + 1) else findDashesAux r (i + 1)

/-- `findDashes`: ascending indices of the `-` bytes. -/
def findDashes (s : Bytes) : List Nat := findDashesAux s 0

/-- `matchLen`: length of the longest common prefix. -/
def matchLen : Bytes → Bytes → Nat
  | a :: as, b :: bs => if a = b then matchLen as bs + 1 else 0
  | _, _ => 0

/-- The range-scan start: the request name up to and including its
first dash, or the whole name. -/
def fbStart (req : Bytes) : Bytes :=
  match findDashes req with
  | [] => req
  | d :: _ => req.take (d + 1)

/-- One iteration of the `AscendRange` callback: entries with the
request's system tag and dash count overwrite `best` whenever their
common prefix with the request is at least the running best. -/
def fbStep (reqSys dn : Nat) (req : Bytes) (acc : Nat × btItem) (i : btItem) : Nat × btItem :=
  if i.sys = reqSys ∧ (findDashes i.rest).length = dn then
    (if matchLen req i.rest ≥ acc.1 then (matchLen req i.rest, i) else acc)
  else acc

/-- Membership in the `AscendRange(lo, hi)` window
`[⟨start, 0-hash⟩, ⟨start ++ 0xff, 0-hash⟩)` under `itemLess`. -/
def fbInRange (start : Bytes) (i : btItem) : Bool :=
  !itemLess i ⟨start, zeroHash, 0⟩ && itemLess i ⟨start ++ [255], zeroHash, 0⟩

/-- The items `AscendRange(lo, hi)` visits, in ascending order. -/
def fbScan (cat : List btItem) (start : Bytes) : List btItem :=
  cat.filter (fbInRange start)

/-- The base-selection core of `findBase` (src/catalog.go lines
158-223): reject names shorter than 3 bytes and `source`; range-scan the
catalog snapshot (listed in ascending `itemLess` order); fold the
selection step over it; fail when nothing matched. -/
def findBase (cat : List btItem) (reqSys : Nat) (req : Bytes) : Option btItem :=
  if req.length < 3 then none
  else if req = bytesOfString "source" then none
  else
    let best := (fbScan cat (fbStart req)).foldl
      (fbStep reqSys (findDashes req).length req) (0, ⟨[], zeroHash, 0⟩)
    if best.2.rest = [] then none else some best.2

/-! ## Substituter metadata handler (`getNarInfoCommon`, src/subst.go)

The handler is embedded from the point where the upstream response is
available; HTTP and `narinfo.Parse` are external, so the upstream status
and the parsed record are inputs, as is the catalog's base-lookup
result.  The output is the ordered list of observable effects together
with the HTTP outcome.  All strings here are ASCII, so Go byte slicing
coincides with character slicing. -/

structure nixHash where
  hashAlgo : String
  digest : String
deriving DecidableEq, Repr

/-- go-nix `Hash.NixString()`: `<algo>:<digest>`. -/
def nixString (h : nixHash) : String := h.hashAlgo ++ ":" ++ h.digest

/-- Go `strings.TrimPrefix`. -/
def trimPrefixS (s pre : String) : String :=
  if s.data.take pre.data.length = pre.data then ⟨s.data.drop pre.data.length⟩ else s

/-- Go `path.Base` for the slash-separated names used here. -/
def pathBase (s : String) : String := ⟨(s.data.reverse.takeWhile (· ≠ '/')).reverse⟩

/-- Go `s[a:b]`. -/
def sliceS (s : String) (a b : Nat) : String := ⟨(s.data.drop a).take (b - a)⟩

/-- Go `s[a:]`. -/
def dropS (s : String) (a : Nat) : String := ⟨s.data.drop a⟩

def splitCommaAux : List Char → List Char → List String
  | acc, [] => [⟨acc.reverse⟩]
  | acc, c :: r =>
    if c = ',' then ⟨acc.reverse⟩ :: splitCommaAux [] r else splitCommaAux (c :: acc) r

/-- Go `strings.Split(s, ",")`. -/
def splitComma (s : String) : List String := splitCommaAux [] s.data

structure narInfoRec where
  storePath : String
  url : String
  compression : String
  fileHash : nixHash
  fileSize : Nat
  narHash : nixHash
  narSize : Nat
  references : List String
  signatures : List String
deriving DecidableEq, Repr

structure substConfig where
  upstream : String
  diffAlgo : String
  minFileSize : Int
  maxFileSize : Int
  maxNarSize : Int
deriving DecidableEq, Repr

/-- The base-lookup result the handler consumes: store path, filter
marker and base NAR size. -/
structure baseFound where
  storePath : String
  narFilter : String
  narSize : Nat
deriving DecidableEq, Repr

structure recentRec where
  id : String
  request : differRequest
deriving DecidableEq, Repr

def failedNotFound : String := "notfound"

def failedTooSmall : String := "toosmall"

def failedTooBig : String := "toobig"

def failedNoBase : String := "nobase"

def failedIdentical : String := "identical"

/-- Observable effects of the metadata handler, in program order. -/
inductive substEv
  | anRequest (reqStorePath : String) (failed : String)
  | putRecent (key : String) (rcnt : recentRec)
  | writeBody (ni : narInfoRec)
deriving DecidableEq, Repr

def isNotFound (code : Nat) : Bool := code == 404 || code == 401 || code == 403

/-- The tail of `getNarInfoCommon` after the size gate (src/subst.go
lines 453-517): base lookup, identity check, metadata rewrite, memo
insertion before the body write, success analytics. -/
def baseLookupPhase (cfg : substConfig) (reqid hash : String) (ni : narInfoRec) :
    Except String baseFound → List substEv × Except Nat (recentRec × narInfoRec)
  | .error _ => ([.anRequest (dropS ni.storePath 11) failedNoBase], .error 404)
  | .ok base =>
    if sliceS base.storePath 11 43 = hash then
      ([.anRequest (dropS ni.storePath 11) failedIdentical], .error 404)
    else
      let newUrl := "nar/" ++ trimPrefixS (nixString ni.narHash) "sha256:" ++ ".nar"
      let rcnt : recentRec := ⟨reqid,
        { reqNarPath := ni.url
          baseStorePath := base.storePath
          acceptAlgos := splitComma cfg.diffAlgo
          narFilter := base.narFilter
          upstream := cfg.upstream
          baseNarSize := base.narSize
          reqNarSize := ni.narSize
          reqName := dropS ni.storePath 44 }⟩
      let ni' := { ni with
        url := newUrl
        compression := "none"
        fileHash := ni.narHash
        fileSize := ni.narSize }
      ([.putRecent (pathBase newUrl) rcnt, .writeBody ni',
        .anRequest (dropS ni.storePath 11) ""], .ok (rcnt, ni'))

/-- The metadata parse and size gate (src/subst.go lines 427-451): a
parse failure is a 500; a record outside the size bounds is answered 404
with a `toosmall`/`toobig` analytics record; otherwise the base lookup
runs. -/
def parsePhase (cfg : substConfig) (reqid hash : String)
    (baseRes : Except String baseFound) :
    Option narInfoRec → List substEv × Except Nat (recentRec × narInfoRec)
  | none => ([], .error 500)
  | some ni =>
    if toInt64 ni.fileSize < cfg.minFileSize ∨ toInt64 ni.fileSize > cfg.maxFileSize
        ∨ toInt64 ni.narSize > cfg.maxNarSize then
      let code :=
        if toInt64 ni.fileSize > cfg.maxFileSize ∨ toInt64 ni.narSize > cfg.maxNarSize
        then failedTooBig else failedTooSmall
      ([.anRequest (dropS ni.storePath 11) code], .error 404)
    else baseLookupPhase cfg reqid hash ni baseRes

/-- `getNarInfoCommon` (src/subst.go lines 398-518) from the upstream
response onward: HEAD short-circuit, upstream status handling, then the
parse/size/base-lookup phases.  Sizes compare as Go `int` (64-bit two's
complement). -/
def getNarInfoCommon (cfg : substConfig) (reqid hash : String) (head : Bool)
    (upstreamStatus : Nat) (parsed : Option narInfoRec)
    (baseRes : Except String baseFound) :
    List substEv × Except Nat (recentRec × narInfoRec) :=
  if head then ([], .error upstreamStatus)
  else if isNotFound upstreamStatus then
    ([.anRequest hash failedNotFound], .error upstreamStatus)
  else if upstreamStatus ≠ 200 then ([], .error upstreamStatus)
  else parsePhase cfg reqid hash baseRes parsed

/-! ## Differ cache tee (`teeWriter.Write`, src/differ.go lines 775-791)

Writers are scripted: each `Write` step carries the chunk plus the
responses the main (HTTP body) writer and the cache (upload pipe) writer
would give. -/

/-- A writer response: byte count and error. -/
abbrev wResp := Nat × Option String

/-- Go `io.Writer` discipline as used in the tee: a nil error with a
short count becomes `io.ErrShortWrite`. -/
def shortPromote (plen : Nat) (r : wResp) : wResp :=
  match r with
  | (n, none) => if n ≠ plen then (n, some "short write") else (n, none)
  | r => r

/-- Result of a sequence of `teeWriter.Write` calls. -/
structure teeRunOut where
  results : List wResp
  mainGot : List Bytes
  otherGot : List Bytes
  otherAlive : Bool
deriving DecidableEq, Repr

/-- `teeWriter.Write` iterated over scripted steps `(p, mainResp,
cacheResp)`: the main write always happens and its (promoted) result is
returned; the cache write happens only while the cache stream is
attached and the main write succeeded; a failed cache write detaches the
cache stream (`tw.other = nil`). -/
def teeRun : List (Bytes × wResp × wResp) → Bool → teeRunOut
  | [], alive => ⟨[], [], [], alive⟩
  | (p, mres, cres) :: rest, alive =>
    let r := shortPromote p.length mres
    let useCache := r.2.isNone && alive
    let c := shortPromote p.length cres
    let alive2 := if useCache then (if c.2.isSome then false else alive) else alive
    let cGot : List Bytes := if useCache then [p] else []
    let out := teeRun rest alive2
    ⟨r :: out.results, p :: out.mainGot, cGot ++ out.otherGot, out.otherAlive⟩

/-! ## C5: lzma2 dict option recovery -/

/-- A minimal xz container whose first block carries a single lzma2
filter with dict property byte `bits`: header with crc32 check, one
filter record, a one-record index declaring uncompressed size 7, and a
matching footer. -/
def xzDictTemplate (bits : Nat) : Bytes :=
  [0xFD, 0x37, 0x7A, 0x58, 0x5A, 0x00, 0x00, 0x01, 0, 0, 0, 0, 0, 0x00, 0x21, 0x01, bits,
   0x00, 0x01, 0x05, 0x07, 0, 0, 0, 0, 0, 0, 0, 0, 0x00, 0x01, 0x59, 0x5A]

/-- C5 (amended): for dict property values below 40, `parseXz` emits
`--lzma2=dict=d` with `d = (2 | (bits & 1)) << (bits/2 + 11)`; the value
40 is allowed and maps to the preset 4294967295 (2^32-1); only values
above 40 are rejected. -/
theorem parseXz_lzma2_dict :
    (∀ bits, bits < 40 →
      parseXz (xzDictTemplate bits) = .ok ⟨7, [bytesOfString "--check=crc32",
        bytesOfString "--lzma2=dict=" ++ natDec ((2 ||| (bits &&& 1)) <<< (bits / 2 + 11))]⟩)
    ∧ parseXz (xzDictTemplate 40) = .ok ⟨7, [bytesOfString "--check=crc32",
        bytesOfString "--lzma2=dict=4294967295"]⟩
    ∧ (∀ bits, 40 < bits → bits ≤ 63 → parseXz (xzDictTemplate bits) = .error .badData) := by
  refine ⟨?_, by decide, ?_⟩
  · intro bits hb
    interval_cases bits <;> decide
  · intro bits h1 h2
    interval_cases bits <;> decide

/-- C5 witness: the two quantified parts of the theorem at dict
property bytes 5 and 50. -/
theorem parseXz_lzma2_dict_witness :
    parseXz (xzDictTemplate 5) = .ok ⟨7, [bytesOfString "--check=crc32",
      bytesOfString "--lzma2=dict=" ++ natDec ((2 ||| (5 &&& 1)) <<< (5 / 2 + 11))]⟩
    ∧ parseXz (xzDictTemplate 50) = .error .badData :=
  ⟨parseXz_lzma2_dict.1 5 (by decide), parseXz_lzma2_dict.2.2 50 (by decide) (by decide)⟩

/-- C5 counterexample: the claim says dict property value 40 is
disallowed and yields an error; on this well-formed container with dict
property 40, `parseXz` succeeds and emits `--lzma2=dict=4294967295`. -/
theorem parseXz_dict40_not_error :
    parseXz (xzDictTemplate 40) = .ok ⟨7, [bytesOfString "--check=crc32",
      bytesOfString "--lzma2=dict=4294967295"]⟩ := by decide

/-! ## C6: the strict gz header gate -/

theorem gz_not_xz {p : Bytes} (h : hasSuffixB p extGz = true) :
    hasSuffixB p extXz = false := by
  by_contra hx
  simp only [Bool.not_eq_false] at hx
  obtain ⟨a, rfl⟩ := (hasSuffixB_iff p extGz).mp h
  obtain ⟨b, hb⟩ := (hasSuffixB_iff (a ++ extGz) extXz).mp hx
  have : extGz = extXz := by
    have h1 : (a ++ extGz).drop a.length = extGz := by simp
    have h2 : (b ++ extXz).drop b.length = extXz := by simp
    have hlen : a.length = b.length := by
      have := congrArg List.length hb
      simp only [List.length_append] at this
      simp only [extGz, extXz, bytesOfString] at this ⊢
      simp at this
      omega
    rw [← h1, hb, hlen, h2]
  simp [extGz, extXz, bytesOfString] at this

/-- C6: a regular `.gz` entry is replaced by a metadata-plus-data pair
only when its body is at least 18 bytes and its first ten bytes are
exactly `1F 8B 08 00 00 00 00 00 00 03`; a `.gz` entry whose bytes do
not begin with that exact sequence passes through unchanged. -/
theorem expandGz_strict_gate (t : extTools) (e : narEnt)
    (hr : e.typ = .regular) (hgz : hasSuffixB e.path extGz = true) :
    (e.data.take 10 ≠ gzStrictHeader → expandEntry t e = .ok [e])
    ∧ (expandEntry t e ≠ .ok [e] →
        e.data.take 10 = gzStrictHeader ∧ 18 ≤ e.data.length) := by
  have hnd : ¬ (e.typ = .dir ∨ e.typ = .symlink) := by rw [hr]; rintro (h | h) <;> simp_all
  have hx := gz_not_xz hgz
  rw [expandEntry, if_neg hnd, if_neg (by simp [hx]), if_pos hgz]
  constructor
  · intro hne
    rw [if_pos (Or.inr hne)]
  · intro hne
    by_cases hgate : e.data.length < 18 ∨ e.data.take 10 ≠ gzStrictHeader
    · rw [if_pos hgate] at hne; exact absurd rfl hne
    · push_neg at hgate
      exact ⟨hgate.2, by omega⟩

/-- C6 witness: the theorem applied to a concrete `.gz` entry whose
header byte 3 is `08` (name flag set), which passes through. -/
theorem expandGz_strict_gate_witness :
    expandEntry ⟨id, fun _ => id, id, id⟩
      ⟨.regular, bytesOfString "man/ls.1.gz", [], false, 18,
        [0x1f, 0x8b, 8, 8, 0, 0, 0, 0, 0, 3, 0, 0, 0, 0, 1, 0, 0, 0]⟩
    = .ok [⟨.regular, bytesOfString "man/ls.1.gz", [], false, 18,
        [0x1f, 0x8b, 8, 8, 0, 0, 0, 0, 0, 3, 0, 0, 0, 0, 1, 0, 0, 0]⟩] :=
  (expandGz_strict_gate ⟨id, fun _ => id, id, id⟩ _ (by decide) (by decide)).1 (by decide)

/-! ## C8: differ cache key -/

theorem sha256Round_length (s : List Nat) (kw : Nat × Nat) :
    (sha256Round s kw).length = s.length := by
  match s with
  | [] => rfl
  | [_] => rfl
  | [_, _] => rfl
  | [_, _, _] => rfl
  | [_, _, _, _] => rfl
  | [_, _, _, _, _] => rfl
  | [_, _, _, _, _, _] => rfl
  | [_, _, _, _, _, _, _] => rfl
  | [_, _, _, _, _, _, _, _] => rfl
  | _ :: _ :: _ :: _ :: _ :: _ :: _ :: _ :: _ :: _ => rfl

theorem foldl_sha256Round_length (l : List (Nat × Nat)) :
    ∀ s : List Nat, (l.foldl sha256Round s).length = s.length := by
  induction l with
  | nil => intro s; rfl
  | cons x xs ih => intro s; rw [List.foldl_cons, ih, sha256Round_length]

theorem sha256Compress_length (st ws : List Nat) (h : st.length = 8) :
    (sha256Compress st ws).length = 8 := by
  rw [sha256Compress]
  simp [foldl_sha256Round_length, h]

theorem sha256Blocks_length : ∀ (fuel : Nat) (ws st : List Nat), st.length = 8 →
    (sha256Blocks fuel ws st).length = 8
  | 0, _, _, h => h
  | _ + 1, [], _, h => h
  | fuel + 1, a :: l, st, h =>
    sha256Blocks_length fuel ((a :: l).drop 16) _ (sha256Compress_length st _ h)

theorem flatMap_be32_length : ∀ st : List Nat, (st.flatMap be32).length = 4 * st.length
  | [] => rfl
  | x :: xs => by
    rw [List.flatMap_cons, List.length_append, flatMap_be32_length xs]
    simp [be32]; omega

theorem sha256_length (msg : Bytes) : (sha256 msg).length = 32 := by
  rw [sha256]
  rw [flatMap_be32_length, sha256Blocks_length _ _ _ (by rfl)]

theorem base64urlChars_length : ∀ l : Bytes, (base64urlChars l).length = (4 * l.length + 2) / 3
  | [] => rfl
  | [_] => by simp [base64urlChars]
  | [_, _] => by simp [base64urlChars]
  | _ :: _ :: _ :: rest => by
    rw [base64urlChars]
    simp only [List.length_cons, base64urlChars_length rest]
    omega

theorem cacheKey_length (r : differRequest) (a : String) : (cacheKey r a).length = 39 := by
  show ('v' :: '1' :: '-' :: (base64urlChars (sha256 (cacheKeyPreimage r a))).take 36).length = 39
  simp only [List.length_cons, List.length_take, base64urlChars_length, sha256_length]
  rfl

/-- C8 (amended): the cache key is `"v1-"` followed by the 36-character
URL-safe prefix of the SHA-256 of the newline-terminated lines `up=`,
`req=`, `base=`, `sizes=`, `algo=`, with `filter=` appended only when
the filter is non-empty; the whole key is 39 characters; and the key
ignores every field outside those lines, in particular the accepted
algorithm/level list, so requests differing only in compression level
share a key. -/
theorem cacheKey_spec :
    (∀ r a, cacheKey r a =
      ⟨'v' :: '1' :: '-' :: (base64urlChars (sha256 (bytesOfString
        ("up=" ++ r.upstream ++ "\n" ++ "req=" ++ r.reqNarPath ++ "\n"
          ++ "base=" ++ r.baseStorePath ++ "\n"
          ++ "sizes=" ++ toString r.baseNarSize ++ "," ++ toString r.reqNarSize ++ "\n"
          ++ "algo=" ++ a ++ "\n"
          ++ (if r.narFilter.length > 0 then "filter=" ++ r.narFilter ++ "\n" else ""))))).take 36⟩)
    ∧ (∀ r a, (cacheKey r a).length = 39)
    ∧ (∀ r r' a, r.upstream = r'.upstream → r.reqNarPath = r'.reqNarPath →
        r.baseStorePath = r'.baseStorePath → r.baseNarSize = r'.baseNarSize →
        r.reqNarSize = r'.reqNarSize → r.narFilter = r'.narFilter →
        cacheKey r a = cacheKey r' a) := by
  refine ⟨fun r a => rfl, cacheKey_length, ?_⟩
  intro r r' a h1 h2 h3 h4 h5 h6
  rw [cacheKey, cacheKey, cacheKeyPreimage, cacheKeyPreimage, h1, h2, h3, h4, h5, h6]

def cacheKeyReqA : differRequest :=
  ⟨"nar/0abc.nar.xz", "/nix/store/aaaaaaaaaaaaaaaaaaaaaaaaaaaaaaaa-pkg-1.0",
   ["zstd-3", "xdelta-1"], "", "cache.nixos.org", 1000, 2000, "pkg-1.0"⟩

def cacheKeyReqB : differRequest :=
  ⟨"nar/0abc.nar.xz", "/nix/store/aaaaaaaaaaaaaaaaaaaaaaaaaaaaaaaa-pkg-1.0",
   ["zstd-9"], "", "cache.nixos.org", 1000, 2000, "pkg-1.0"⟩

/-- C8 witness: two concrete requests that differ only in the accepted
compression levels share a key. -/
theorem cacheKey_spec_witness : cacheKey cacheKeyReqA "zstd" = cacheKey cacheKeyReqB "zstd" :=
  cacheKey_spec.2.2 cacheKeyReqA cacheKeyReqB "zstd" rfl rfl rfl rfl rfl rfl

/-- C8 counterexample: the claim says the key itself is a 36-character
prefix of the SHA-256; on this concrete request the key is 39 characters
(a `v1-` version tag precedes the 36-character digest prefix), so it is
not that prefix. -/
theorem cacheKey_not_bare_prefix :
    cacheKey cacheKeyReqA "zstd"
      ≠ ⟨(base64urlChars (sha256 (cacheKeyPreimage cacheKeyReqA "zstd"))).take 36⟩ := by
  intro h
  have h1 := cacheKey_length cacheKeyReqA "zstd"
  rw [h] at h1
  have h2 : (String.mk ((base64urlChars
      (sha256 (cacheKeyPreimage cacheKeyReqA "zstd"))).take 36)).length = 36 := by
    show ((base64urlChars (sha256 (cacheKeyPreimage cacheKeyReqA "zstd"))).take 36).length = 36
    simp only [List.length_take, base64urlChars_length, sha256_length]
    rfl
  omega

/-! ## C2, C4, C7: the substituter metadata handler -/

/-- In-range sizes fall through the size gate to the base lookup. -/
theorem getNarInfo_in_range (cfg : substConfig) (reqid hash : String) (ni : narInfoRec)
    (baseRes : Except String baseFound)
    (hsize : ¬ (toInt64 ni.fileSize < cfg.minFileSize ∨ toInt64 ni.fileSize > cfg.maxFileSize
        ∨ toInt64 ni.narSize > cfg.maxNarSize)) :
    getNarInfoCommon cfg reqid hash false 200 (some ni) baseRes =
      baseLookupPhase cfg reqid hash ni baseRes := by
  rw [getNarInfoCommon, if_neg (by simp), if_neg (by simp [isNotFound]), if_neg (by simp),
    parsePhase]
  exact if_neg hsize

/-- C7: a parsed record with `FileSize` below the minimum, above the
maximum, or `NarSize` above the maximum is answered 404 with exactly one
analytics request record, coded `toobig` when a maximum was exceeded and
`toosmall` otherwise; sizes exactly at the bounds are not rejected and
proceed to the base lookup. -/
theorem size_gate (cfg : substConfig) (reqid hash : String) (ni : narInfoRec)
    (baseRes : Except String baseFound) :
    ((toInt64 ni.fileSize < cfg.minFileSize ∨ toInt64 ni.fileSize > cfg.maxFileSize
        ∨ toInt64 ni.narSize > cfg.maxNarSize) →
      getNarInfoCommon cfg reqid hash false 200 (some ni) baseRes =
        ([.anRequest (dropS ni.storePath 11)
            (if toInt64 ni.fileSize > cfg.maxFileSize ∨ toInt64 ni.narSize > cfg.maxNarSize
             then failedTooBig else failedTooSmall)], .error 404))
    ∧ (¬ (toInt64 ni.fileSize < cfg.minFileSize ∨ toInt64 ni.fileSize > cfg.maxFileSize
        ∨ toInt64 ni.narSize > cfg.maxNarSize) →
      getNarInfoCommon cfg reqid hash false 200 (some ni) baseRes =
        baseLookupPhase cfg reqid hash ni baseRes) := by
  constructor
  · intro hsz
    rw [getNarInfoCommon, if_neg (by simp), if_neg (by simp [isNotFound]), if_neg (by simp),
      parsePhase]
    rw [if_pos hsz]
  · exact getNarInfo_in_range cfg reqid hash ni baseRes

/-- C7 witness: with bounds `[10, 100]` and max nar size 1000, a record
whose file size is exactly 100 and nar size exactly 1000 passes the
gate, while file size 101 is rejected as `toobig`. -/
theorem size_gate_witness :
    (getNarInfoCommon ⟨"up", "zstd-3", 10, 100, 1000⟩ "id" "h" false 200
        (some ⟨"/nix/store/a-p", "u", "xz", ⟨"sha256", "f"⟩, 100, ⟨"sha256", "n"⟩, 1000, [], []⟩)
        (.error "no base found") =
      baseLookupPhase ⟨"up", "zstd-3", 10, 100, 1000⟩ "id" "h"
        ⟨"/nix/store/a-p", "u", "xz", ⟨"sha256", "f"⟩, 100, ⟨"sha256", "n"⟩, 1000, [], []⟩
        (.error "no base found"))
    ∧ (getNarInfoCommon ⟨"up", "zstd-3", 10, 100, 1000⟩ "id" "h" false 200
        (some ⟨"/nix/store/a-p", "u", "xz", ⟨"sha256", "f"⟩, 101, ⟨"sha256", "n"⟩, 1000, [], []⟩)
        (.error "no base found") =
      ([.anRequest (dropS "/nix/store/a-p" 11) failedTooBig], .error 404)) := by
  constructor
  · exact (size_gate _ "id" "h" _ _).2 (by decide)
  · have := (size_gate ⟨"up", "zstd-3", 10, 100, 1000⟩ "id" "h"
      ⟨"/nix/store/a-p", "u", "xz", ⟨"sha256", "f"⟩, 101, ⟨"sha256", "n"⟩, 1000, [], []⟩
      (.error "no base found")).1 (by decide)
    rw [this]
    decide

/-- C2: for an upstream 200 record with in-range sizes and a
non-identical base, the 200 response keeps `NarHash`, `NarSize`,
`References`, `Signatures` and the store path, sets
`FileHash = NarHash`, `FileSize = NarSize`, `Compression = "none"`, and
rewrites the URL to `nar/<narHash digest>.nar` (the `NixString` hash
rendering with its `sha256:` prefix trimmed). -/
theorem metadata_rewrite (cfg : substConfig) (reqid hash : String) (ni : narInfoRec)
    (base : baseFound)
    (hsize : ¬ (toInt64 ni.fileSize < cfg.minFileSize ∨ toInt64 ni.fileSize > cfg.maxFileSize
        ∨ toInt64 ni.narSize > cfg.maxNarSize))
    (hident : sliceS base.storePath 11 43 ≠ hash) :
    ∃ evs rcnt ni',
      getNarInfoCommon cfg reqid hash false 200 (some ni) (.ok base) = (evs, .ok (rcnt, ni'))
      ∧ ni'.narHash = ni.narHash
      ∧ ni'.narSize = ni.narSize
      ∧ ni'.fileHash = ni.narHash
      ∧ ni'.fileSize = ni.narSize
      ∧ ni'.compression = "none"
      ∧ ni'.url = "nar/" ++ trimPrefixS (nixString ni.narHash) "sha256:" ++ ".nar"
      ∧ ni'.signatures = ni.signatures
      ∧ ni'.references = ni.references
      ∧ ni'.storePath = ni.storePath
      ∧ substEv.writeBody ni' ∈ evs := by
  rw [getNarInfo_in_range cfg reqid hash ni (.ok base) hsize, baseLookupPhase]
  rw [if_neg hident]
  exact ⟨_, _, _, rfl, rfl, rfl, rfl, rfl, rfl, rfl, rfl, rfl, rfl, by simp⟩

/-- C2 witness: the theorem at a concrete record and base. -/
theorem metadata_rewrite_witness :
    ∃ evs rcnt ni',
      getNarInfoCommon ⟨"up", "zstd-3", 10, 1000, 10000⟩ "id" "hreq" false 200
        (some ⟨"/nix/store/hreq-p-1.1", "p.nar.xz", "xz", ⟨"sha256", "f"⟩, 100,
          ⟨"sha256", "nnn"⟩, 900, ["r1"], ["s1"]⟩)
        (.ok ⟨"/nix/store/hbase-p-1.0", "", 800⟩) = (evs, .ok (rcnt, ni'))
      ∧ ni'.narHash = ⟨"sha256", "nnn"⟩
      ∧ ni'.narSize = 900
      ∧ ni'.fileHash = ⟨"sha256", "nnn"⟩
      ∧ ni'.fileSize = 900
      ∧ ni'.compression = "none"
      ∧ ni'.url = "nar/" ++ trimPrefixS (nixString ⟨"sha256", "nnn"⟩) "sha256:" ++ ".nar"
      ∧ ni'.signatures = ["s1"]
      ∧ ni'.references = ["r1"]
      ∧ ni'.storePath = "/nix/store/hreq-p-1.1"
      ∧ substEv.writeBody ni' ∈ evs :=
  metadata_rewrite ⟨"up", "zstd-3", 10, 1000, 10000⟩ "id" "hreq"
    ⟨"/nix/store/hreq-p-1.1", "p.nar.xz", "xz", ⟨"sha256", "f"⟩, 100,
      ⟨"sha256", "nnn"⟩, 900, ["r1"], ["s1"]⟩
    ⟨"/nix/store/hbase-p-1.0", "", 800⟩ (by decide) (by decide)

/-- C4: in every effect trace of the metadata handler, a written 200
response body is preceded by the recent-memo insertion keyed by the
basename of the rewritten URL. -/
theorem recent_memo_before_body (cfg : substConfig) (reqid hash : String) (head : Bool)
    (upstreamStatus : Nat) (parsed : Option narInfoRec) (baseRes : Except String baseFound) :
    ∀ j ni',
      (getNarInfoCommon cfg reqid hash head upstreamStatus parsed baseRes).1[j]?
        = some (substEv.writeBody ni') →
      ∃ (i : Nat) (rcnt : recentRec), i < j ∧
        (getNarInfoCommon cfg reqid hash head upstreamStatus parsed baseRes).1[i]?
          = some (substEv.putRecent (pathBase ni'.url) rcnt) := by
  intro j ni' hj
  rw [getNarInfoCommon] at hj ⊢
  by_cases h1 : head = true
  · rw [if_pos h1] at hj; simp at hj
  · rw [if_neg h1] at hj ⊢
    by_cases h2 : isNotFound upstreamStatus = true
    · rw [if_pos h2] at hj
      match j with
      | 0 => simp at hj
      | _ + 1 => simp at hj
    · rw [if_neg h2] at hj ⊢
      by_cases h3 : upstreamStatus ≠ 200
      · rw [if_pos h3] at hj; simp at hj
      · rw [if_neg h3] at hj ⊢
        cases parsed with
        | none => rw [parsePhase] at hj; simp at hj
        | some ni =>
          rw [parsePhase] at hj ⊢
          by_cases h4 : (toInt64 ni.fileSize < cfg.minFileSize
              ∨ toInt64 ni.fileSize > cfg.maxFileSize ∨ toInt64 ni.narSize > cfg.maxNarSize)
          · rw [if_pos h4] at hj
            match j with
            | 0 => simp at hj
            | _ + 1 => simp at hj
          · rw [if_neg h4] at hj ⊢
            cases baseRes with
            | error e =>
              rw [baseLookupPhase] at hj
              match j with
              | 0 => simp at hj
              | _ + 1 => simp at hj
            | ok base =>
              rw [baseLookupPhase] at hj ⊢
              by_cases h5 : sliceS base.storePath 11 43 = hash
              · rw [if_pos h5] at hj
                match j with
                | 0 => simp at hj
                | _ + 1 => simp at hj
              · rw [if_neg h5] at hj ⊢
                match j with
                | 0 => simp at hj
                | 1 =>
                  simp only [List.getElem?_cons_succ, List.getElem?_cons_zero,
                    Option.some.injEq, substEv.writeBody.injEq] at hj
                  subst hj
                  exact ⟨0, _, by omega, rfl⟩
                | n + 2 =>
                  match n with
                  | 0 => simp at hj
                  | _ + 1 => simp at hj

/-- C4 witness: the theorem at the concrete success trace of the C2
witness inputs. -/
theorem recent_memo_before_body_witness :
    ∃ (i : Nat) (rcnt : recentRec), i < 1 ∧
      (getNarInfoCommon ⟨"up", "zstd-3", 10, 1000, 10000⟩ "id" "hreq" false 200
        (some ⟨"/nix/store/hreq-p-1.1", "p.nar.xz", "xz", ⟨"sha256", "f"⟩, 100,
          ⟨"sha256", "nnn"⟩, 900, ["r1"], ["s1"]⟩)
        (.ok ⟨"/nix/store/hbase-p-1.0", "", 800⟩)).1[i]?
        = some (substEv.putRecent (pathBase "nar/nnn.nar") rcnt) := by
  have h := recent_memo_before_body ⟨"up", "zstd-3", 10, 1000, 10000⟩ "id" "hreq" false 200
    (some ⟨"/nix/store/hreq-p-1.1", "p.nar.xz", "xz", ⟨"sha256", "f"⟩, 100,
      ⟨"sha256", "nnn"⟩, 900, ["r1"], ["s1"]⟩)
    (.ok ⟨"/nix/store/hbase-p-1.0", "", 800⟩) 1
    ⟨"/nix/store/hreq-p-1.1", "nar/nnn.nar", "none", ⟨"sha256", "nnn"⟩, 900,
      ⟨"sha256", "nnn"⟩, 900, ["r1"], ["s1"]⟩ (by decide)
  simpa using h

/-! ## C10: the differ's write-through cache tee -/

theorem shortPromote_conform (plen : Nat) (r : wResp) (h : r.2 = none → r.1 = plen) :
    shortPromote plen r = r := by
  obtain ⟨n, err⟩ := r
  cases err with
  | none =>
    have hn : n = plen := h rfl
    simp [shortPromote, hn]
  | some e => rfl

/-- C10: every `teeWriter.Write` returns a value computed from the main
(HTTP body) writer's response alone — the cache writer's behaviour never
reaches the caller — and with a contract-conforming main writer it is
exactly the main writer's response; every chunk reaches the main writer;
a detached cache stream receives nothing; and a failed cache write
detaches the stream, so later chunks bypass it while still reaching the
main writer. -/
theorem teeWriter_cache_isolation :
    (∀ steps alive,
      (teeRun steps alive).results = steps.map (fun s => shortPromote s.1.length s.2.1))
    ∧ (∀ steps alive, (teeRun steps alive).mainGot = steps.map (·.1))
    ∧ (∀ steps, (teeRun steps false).otherGot = [])
    ∧ (∀ steps alive, (∀ s ∈ steps, (s.2.1).2 = none → (s.2.1).1 = s.1.length) →
        (teeRun steps alive).results = steps.map (·.2.1))
    ∧ (∀ p mres cres rest,
        (shortPromote p.length mres).2 = none → (shortPromote p.length cres).2 ≠ none →
        (teeRun ((p, mres, cres) :: rest) true).otherGot = [p]) := by
  have hres : ∀ steps alive,
      (teeRun steps alive).results = steps.map (fun s => shortPromote s.1.length s.2.1) := by
    intro steps
    induction steps with
    | nil => intro alive; rfl
    | cons s rest ih =>
      intro alive
      obtain ⟨p, mres, cres⟩ := s
      rw [teeRun]
      simp only [List.map_cons, ih]
  have hdead : ∀ steps, (teeRun steps false).otherGot = [] := by
    intro steps
    induction steps with
    | nil => rfl
    | cons s rest ih =>
      obtain ⟨p, mres, cres⟩ := s
      rw [teeRun]
      simp [ih]
  refine ⟨hres, ?_, hdead, ?_, ?_⟩
  · intro steps
    induction steps with
    | nil => intro alive; rfl
    | cons s rest ih =>
      intro alive
      obtain ⟨p, mres, cres⟩ := s
      rw [teeRun]
      simp only [List.map_cons, ih]
  · intro steps alive hcf
    rw [hres]
    apply List.map_congr_left
    intro s hs
    exact shortPromote_conform s.1.length s.2.1 (hcf s hs)
  · intro p mres cres rest hm hc
    rw [teeRun]
    simp [hm, Option.isSome_iff_ne_none.mpr hc, hdead rest]

/-- C10 witness: a two-step run whose first cache write fails; both
chunks still reach the main writer, the returned values are the main
writer's, and the cache receives only the first chunk. -/
theorem teeWriter_cache_isolation_witness :
    (teeRun [([1, 2], (2, none), (0, some "upload reset")), ([3], (1, none), (1, none))] true).results
      = [(2, none), (1, none)]
    ∧ (teeRun [([1, 2], (2, none), (0, some "upload reset")), ([3], (1, none), (1, none))] true).mainGot
      = [[1, 2], [3]]
    ∧ (teeRun [([1, 2], (2, none), (0, some "upload reset")), ([3], (1, none), (1, none))] true).otherGot
      = [[1, 2]] := by
  refine ⟨?_, ?_, ?_⟩
  · have h := teeWriter_cache_isolation.2.2.2.1
      [([1, 2], (2, none), (0, some "upload reset")), ([3], (1, none), (1, none))] true
      (by decide)
    rw [h]; decide
  · have h := teeWriter_cache_isolation.2.1
      [([1, 2], (2, none), (0, some "upload reset")), ([3], (1, none), (1, none))] true
    rw [h]; decide
  · have h := teeWriter_cache_isolation.2.2.2.2
      [1, 2] (2, none) (0, some "upload reset") [([3], (1, none), (1, none))]
      (by decide) (by decide)
    exact h

/-! ## C9: collapse demands a data entry after every meta entry -/

theorem readAndCollapse_head_error (t : extTools) (e : narEnt) (rest : List narEnt)
    (he : e.typ = .regular) (hm : hasSuffixB e.path narExpMetaSuffix = true)
    (hbad : metaParse e.data = none
      ∨ rest = []
      ∨ (∃ d l, rest = d :: l ∧ hasSuffixB d.path narExpDataSuffix = false)
      ∨ (∃ m, metaParse e.data = some m ∧ m.algo ≠ bytesOfString "xz"
          ∧ m.algo ≠ bytesOfString "gz")) :
    ∃ msg, readAndCollapse t (e :: rest) = .error msg := by
  have hnd : ¬ (e.typ = .dir ∨ e.typ = .symlink) := by rw [he]; rintro (h | h) <;> simp_all
  rcases hbad with hnone | hnil | ⟨d, l, rfl, hd⟩ | ⟨m, hsome, hx, hg⟩
  · cases rest with
    | nil =>
      rw [readAndCollapse, if_neg hnd, if_pos hm, hnone]
      exact ⟨_, rfl⟩
    | cons d l =>
      rw [readAndCollapse, if_neg hnd, if_pos hm, hnone]
      exact ⟨_, rfl⟩
  · subst hnil
    rw [readAndCollapse, if_neg hnd, if_pos hm]
    cases metaParse e.data <;> exact ⟨_, rfl⟩
  · rw [readAndCollapse, if_neg hnd, if_pos hm]
    cases metaParse e.data with
    | none => exact ⟨_, rfl⟩
    | some m =>
      dsimp only
      rw [if_pos (by simp [hd])]
      exact ⟨_, rfl⟩
  · cases rest with
    | nil =>
      rw [readAndCollapse, if_neg hnd, if_pos hm, hsome]
      exact ⟨_, rfl⟩
    | cons d l =>
      rw [readAndCollapse, if_neg hnd, if_pos hm, hsome]
      dsimp only
      by_cases hds : hasSuffixB d.path narExpDataSuffix = true
      · rw [if_neg (by simp [hds]), if_neg hx, if_neg hg]
        exact ⟨_, rfl⟩
      · rw [if_pos (by simpa using hds)]
        exact ⟨_, rfl⟩

theorem readAndCollapse_clean_prefix (t : extTools) :
    ∀ (pre : List narEnt)
    (_ : ∀ p ∈ pre, p.typ = .regular → hasSuffixB p.path narExpMetaSuffix = false)
    (l : List narEnt) (_ : l ≠ []) (msg : String)
    (_ : readAndCollapse t l = .error msg),
    ∃ msg', readAndCollapse t (pre ++ l) = .error msg'
  | [], _, l, _, msg, herr => ⟨msg, herr⟩
  | p :: pre', hpre, l, hne, msg, herr => by
    obtain ⟨msg', ih⟩ := readAndCollapse_clean_prefix t pre'
      (fun q hq => hpre q (List.mem_cons_of_mem p hq)) l hne msg herr
    cases hpl : pre' ++ l with
    | nil =>
      cases l with
      | nil => exact absurd rfl hne
      | cons a b => simp at hpl
    | cons d rest2 =>
      rw [List.cons_append, hpl]
      rw [hpl] at ih
      by_cases hds : p.typ = .dir ∨ p.typ = .symlink
      · rw [readAndCollapse, if_pos hds, ih]
        exact ⟨_, rfl⟩
      · have hnm : hasSuffixB p.path narExpMetaSuffix = false := by
          apply hpre p (List.mem_cons_self p pre')
          cases hty : p.typ with
          | dir => exact absurd (Or.inl hty) hds
          | symlink => exact absurd (Or.inr hty) hds
          | regular => rfl
        rw [readAndCollapse, if_neg hds, if_neg (by simp [hnm]), ih]
        exact ⟨_, rfl⟩

/-- C9: whenever the collapse stream reaches a regular entry ending in
the meta suffix that is not immediately followed by an entry ending in
the data suffix — the stream ends, the next entry lacks the suffix, or
the decoded record names an algorithm other than `xz`/`gz` (including
undecodable records) — `CollapseNar` delivers an error instead of
emitting an entry for the original path. -/
theorem collapse_meta_requires_data (t : extTools) (pre : List narEnt) (e : narEnt)
    (rest : List narEnt)
    (hpre : ∀ p ∈ pre, p.typ = .regular → hasSuffixB p.path narExpMetaSuffix = false)
    (he : e.typ = .regular) (hm : hasSuffixB e.path narExpMetaSuffix = true)
    (hbad : metaParse e.data = none
      ∨ rest = []
      ∨ (∃ d l, rest = d :: l ∧ hasSuffixB d.path narExpDataSuffix = false)
      ∨ (∃ m, metaParse e.data = some m ∧ m.algo ≠ bytesOfString "xz"
          ∧ m.algo ≠ bytesOfString "gz")) :
    ∃ msg, CollapseNar t (pre ++ e :: rest) = .error msg := by
  obtain ⟨msg, hhead⟩ := readAndCollapse_head_error t e rest he hm hbad
  obtain ⟨msg', hfull⟩ := readAndCollapse_clean_prefix t pre hpre (e :: rest) (by simp) msg hhead
  exact ⟨msg', by rw [CollapseNar, hfull]; rfl⟩

/-- C9 witness: a directory, then a meta entry whose record decodes to
algorithm `gz` but which ends the stream; collapse errors. -/
theorem collapse_meta_requires_data_witness :
    ∃ msg, CollapseNar ⟨id, fun _ => id, id, id⟩
      [⟨.dir, [], [], false, 0, []⟩,
       ⟨.regular, bytesOfString "f\x01_exp1meta_", [], false, 16,
         metaJson ⟨bytesOfString "gz", [], 0⟩⟩] = .error msg :=
  collapse_meta_requires_data ⟨id, fun _ => id, id, id⟩
    [⟨.dir, [], [], false, 0, []⟩]
    ⟨.regular, bytesOfString "f\x01_exp1meta_", [], false, 16,
      metaJson ⟨bytesOfString "gz", [], 0⟩⟩ []
    (by decide) (by decide) (by decide) (Or.inr (Or.inl rfl))

/-! ## C3: base selection -/

theorem ltB_nil_left (a : Bytes) (h : a ≠ []) : ltB [] a = true := by
  cases a with
  | nil => exact absurd rfl h
  | cons c r => rfl

theorem ltB_prefix_false : ∀ s a : Bytes, s <+: a → ltB a s = false := by
  intro s
  induction s with
  | nil =>
    intro a _
    cases a <;> rfl
  | cons c s' ih =>
    intro a hp
    obtain ⟨t, rfl⟩ := hp
    rw [List.cons_append, ltB]
    simp only [lt_self_iff_false, if_false, if_pos rfl]
    exact ih (s' ++ t) ⟨t, rfl⟩

theorem ltB_append_same : ∀ s a b : Bytes, ltB (s ++ a) (s ++ b) = ltB a b := by
  intro s
  induction s with
  | nil => intro a b; rfl
  | cons c s' ih =>
    intro a b
    rw [List.cons_append, List.cons_append, ltB]
    simp only [lt_self_iff_false, if_false, if_pos rfl]
    exact ih a b

theorem ltB_replicate_zero : ∀ (n : Nat) (h : Bytes), h.length = n →
    ltB h (List.replicate n 0) = false := by
  intro n
  induction n with
  | zero =>
    intro h hl
    rw [List.length_eq_zero] at hl
    subst hl; rfl
  | succ m ih =>
    intro h hl
    cases h with
    | nil => simp at hl
    | cons a h' =>
      rw [List.replicate_succ, ltB]
      simp only [List.length_cons, Nat.succ.injEq] at hl
      rw [if_neg (by omega)]
      by_cases ha : a = 0
      · rw [if_pos ha]; exact ih h' hl
      · rw [if_neg ha]

theorem inRange_prefix : ∀ (start rest : Bytes), ltB rest start = false →
    ltB rest (start ++ [255]) = true → start <+: rest := by
  intro start
  induction start with
  | nil => intro rest _ _; exact List.nil_prefix
  | cons c s' ih =>
    intro rest hlo hhi
    cases rest with
    | nil => rw [ltB_nil_left (c :: s') (by simp)] at hlo; simp at hlo
    | cons d r' =>
      rw [List.cons_append, ltB] at hhi
      rw [ltB] at hlo
      by_cases hdc : d < c
      · rw [if_pos hdc] at hlo; simp at hlo
      · rw [if_neg hdc] at hlo hhi
        by_cases hde : d = c
        · rw [if_pos hde] at hlo hhi
          subst hde
          obtain ⟨t, ht⟩ := ih r' hlo hhi
          exact ⟨t, by rw [List.cons_append, ht]⟩
        · rw [if_neg hde] at hhi; simp at hhi

theorem matchLen_prefix_le : ∀ s a b : Bytes, s <+: a → s <+: b →
    s.length ≤ matchLen a b := by
  intro s
  induction s with
  | nil => intro a b _ _; simp
  | cons c s' ih =>
    intro a b ha hb
    obtain ⟨t, rfl⟩ := ha
    obtain ⟨u, rfl⟩ := hb
    rw [List.cons_append, List.cons_append, matchLen, if_pos rfl]
    have := ih (s' ++ t) (s' ++ u) ⟨t, rfl⟩ ⟨u, rfl⟩
    simp only [List.length_cons]
    omega

theorem prefix_of_matchLen : ∀ s a b : Bytes, s <+: a → s.length ≤ matchLen a b →
    s <+: b := by
  intro s
  induction s with
  | nil => intro a b _ _; exact List.nil_prefix
  | cons c s' ih =>
    intro a b ha hml
    obtain ⟨t, rfl⟩ := ha
    cases b with
    | nil =>
      rw [List.cons_append, matchLen.eq_def] at hml
      simp at hml
    | cons d b' =>
      rw [List.cons_append, matchLen] at hml
      by_cases hcd : c = d
      · subst hcd
        rw [if_pos rfl] at hml
        simp only [List.length_cons] at hml
        obtain ⟨u, hu⟩ := ih (s' ++ t) b' ⟨t, rfl⟩ (by omega)
        exact ⟨u, by rw [List.cons_append, hu]⟩
      · rw [if_neg hcd] at hml
        simp at hml

theorem matchLen_lt_of_low (start rest req : Bytes) (hpre : start <+: req)
    (hlt : ltB rest start = true) : matchLen req rest < start.length := by
  by_contra hge
  push_neg at hge
  have hp : start <+: rest := prefix_of_matchLen start req rest hpre hge
  rw [ltB_prefix_false start rest hp] at hlt
  exact absurd hlt (by simp)

theorem matchLen_lt_of_high (start rest req : Bytes) (hpre : start <+: req)
    (hb : ∀ x ∈ rest, x < 255)
    (hge : ltB rest (start ++ [255]) = false) : matchLen req rest < start.length := by
  by_contra hc
  push_neg at hc
  have hp : start <+: rest := prefix_of_matchLen start req rest hpre hc
  obtain ⟨t, rfl⟩ := hp
  rw [ltB_append_same start t [255]] at hge
  cases t with
  | nil => rw [ltB_nil_left [255] (by simp)] at hge; simp at hge
  | cons x t' =>
    have hx : x < 255 := hb x (by simp)
    rw [ltB, if_pos hx] at hge
    simp at hge

/-- The `AscendRange` fold either saw no candidate (and kept the zero
accumulator) or returns the last candidate maximizing the common prefix
with the request. -/
theorem fbFold_spec (reqSys dn : Nat) (req : Bytes) (s : List btItem) :
    ((∀ i ∈ s, ¬ (i.sys = reqSys ∧ (findDashes i.rest).length = dn)) ∧
      s.foldl (fbStep reqSys dn req) (0, ⟨[], zeroHash, 0⟩) = (0, ⟨[], zeroHash, 0⟩))
    ∨ ∃ m b u v,
      s.foldl (fbStep reqSys dn req) (0, ⟨[], zeroHash, 0⟩) = (m, b)
      ∧ s = u ++ b :: v
      ∧ b.sys = reqSys ∧ (findDashes b.rest).length = dn
      ∧ m = matchLen req b.rest
      ∧ (∀ i ∈ s, i.sys = reqSys → (findDashes i.rest).length = dn →
          matchLen req i.rest ≤ m)
      ∧ (∀ i ∈ v, i.sys = reqSys → (findDashes i.rest).length = dn →
          matchLen req i.rest < m) := by
  induction s using List.reverseRecOn with
  | nil => exact Or.inl ⟨by simp, rfl⟩
  | append_singleton s' i ih =>
    rw [List.foldl_append, List.foldl_cons, List.foldl_nil]
    by_cases hcand : (i.sys = reqSys ∧ (findDashes i.rest).length = dn)
    · by_cases hge : matchLen req i.rest ≥
          (s'.foldl (fbStep reqSys dn req) (0, ⟨[], zeroHash, 0⟩)).1
      · refine Or.inr ⟨matchLen req i.rest, i, s', [], ?_, by simp, hcand.1, hcand.2, rfl,
          ?_, by simp⟩
        · rw [fbStep, if_pos hcand, if_pos hge]
        · intro j hj hjs hjd
          rcases List.mem_append.mp hj with hj' | hj'
          · rcases ih with ⟨hno, hr⟩ | ⟨m, b, u, v, hr, _, _, _, _, hmax, _⟩
            · exact absurd ⟨hjs, hjd⟩ (hno j hj')
            · have h1 := hmax j hj' hjs hjd
              rw [hr] at hge
              omega
          · simp only [List.mem_singleton] at hj'
            subst hj'
            exact le_refl _
      · rcases ih with ⟨hno, hr⟩ | ⟨m, b, u, v, hr, hdecomp, hbs, hbd, hm, hmax, hlast⟩
        · rw [hr] at hge; simp at hge
        · rw [hr] at hge ⊢
          refine Or.inr ⟨m, b, u, v ++ [i], ?_, by rw [hdecomp]; simp, hbs, hbd, hm, ?_, ?_⟩
          · rw [fbStep, if_pos hcand, if_neg hge]
          · intro j hj hjs hjd
            rcases List.mem_append.mp hj with hj' | hj'
            · exact hmax j hj' hjs hjd
            · simp only [List.mem_singleton] at hj'
              subst hj'
              omega
          · intro j hj hjs hjd
            rcases List.mem_append.mp hj with hj' | hj'
            · exact hlast j hj' hjs hjd
            · simp only [List.mem_singleton] at hj'
              subst hj'
              omega
    · rcases ih with ⟨hno, hr⟩ | ⟨m, b, u, v, hr, hdecomp, hbs, hbd, hm, hmax, hlast⟩
      · refine Or.inl ⟨?_, ?_⟩
        · intro j hj
          rcases List.mem_append.mp hj with hj' | hj'
          · exact hno j hj'
          · simp only [List.mem_singleton] at hj'
            subst hj'
            exact hcand
        · rw [hr, fbStep, if_neg hcand]
      · rw [hr]
        refine Or.inr ⟨m, b, u, v ++ [i], ?_, by rw [hdecomp]; simp, hbs, hbd, hm, ?_, ?_⟩
        · rw [fbStep, if_neg hcand]
        · intro j hj hjs hjd
          rcases List.mem_append.mp hj with hj' | hj'
          · exact hmax j hj' hjs hjd
          · simp only [List.mem_singleton] at hj'
            subst hj'
            exact absurd ⟨hjs, hjd⟩ hcand
        · intro j hj hjs hjd
          rcases List.mem_append.mp hj with hj' | hj'
          · exact hlast j hj' hjs hjd
          · simp only [List.mem_singleton] at hj'
            subst hj'
            exact absurd ⟨hjs, hjd⟩ hcand

theorem filter_eq_append_cons {α : Type} {p : α → Bool} :
    ∀ (l u : List α) (b : α) (v : List α), l.filter p = u ++ b :: v →
    ∃ U V, l = U ++ b :: V ∧ V.filter p = v ∧ p b = true := by
  intro l
  induction l with
  | nil =>
    intro u b v h
    rw [List.filter_nil] at h
    exact absurd h.symm (by simp)
  | cons a l' ih =>
    intro u b v h
    rw [List.filter_cons] at h
    by_cases hpa : p a = true
    · rw [if_pos hpa] at h
      cases u with
      | nil =>
        rw [List.nil_append] at h
        injection h with h1 h2
        subst h1
        exact ⟨[], l', by simp, h2, hpa⟩
      | cons x u' =>
        rw [List.cons_append] at h
        injection h with h1 h2
        subst h1
        obtain ⟨U, V, hUV, hV, hpb⟩ := ih u' b v h2
        exact ⟨a :: U, V, by rw [List.cons_append, ← hUV], hV, hpb⟩
    · rw [if_neg hpa] at h
      obtain ⟨U, V, hUV, hV, hpb⟩ := ih u b v h
      exact ⟨a :: U, V, by rw [List.cons_append, ← hUV], hV, hpb⟩

theorem fbInRange_eq (start : Bytes) (i : btItem) (hh : i.hash.length = 20) :
    fbInRange start i = (!ltB i.rest start && ltB i.rest (start ++ [255])) := by
  have h0 : ltB i.hash zeroHash = false := by
    rw [zeroHash]; exact ltB_replicate_zero 20 i.hash hh
  rw [fbInRange, itemLess, itemLess]
  simp only [h0, Bool.and_false, Bool.or_false]

theorem fbStart_prefix (req : Bytes) : fbStart req <+: req := by
  rw [fbStart]
  cases findDashes req with
  | nil => exact List.prefix_refl req
  | cons d l => exact List.take_prefix (d + 1) req

theorem fbStart_ne_nil (req : Bytes) (h : req ≠ []) : fbStart req ≠ [] := by
  rw [fbStart]
  cases findDashes req with
  | nil => exact h
  | cons d l =>
    intro hc
    rw [List.take_eq_nil_iff] at hc
    rcases hc with hc | hc
    · omega
    · exact h hc

/-- C3 (amended): every base `findBase` returns carries the request's
system tag and dash count; no catalog entry with those two properties
has a strictly longer common prefix with the request; and among ties the
entry occurring latest in ascending catalog order is returned.  (The
returned entry's hash is not compared with the requested hash here —
the caller performs that check.)  Catalog name bytes are below 0xff and
hashes are 20 bytes, as the catalog construction guarantees. -/
theorem findBase_selection (cat : List btItem) (reqSys : Nat) (req : Bytes)
    (hhash : ∀ i ∈ cat, i.hash.length = 20)
    (hbytes : ∀ i ∈ cat, ∀ x ∈ i.rest, x < 255)
    (b : btItem) (hfb : findBase cat reqSys req = some b) :
    b.sys = reqSys
    ∧ (findDashes b.rest).length = (findDashes req).length
    ∧ (∀ e ∈ cat, e.sys = reqSys → (findDashes e.rest).length = (findDashes req).length →
        matchLen req e.rest ≤ matchLen req b.rest)
    ∧ (∃ u v, cat = u ++ b :: v ∧ ∀ e ∈ v, e.sys = reqSys →
        (findDashes e.rest).length = (findDashes req).length →
        matchLen req e.rest < matchLen req b.rest) := by
  rw [findBase] at hfb
  by_cases h1 : req.length < 3
  · rw [if_pos h1] at hfb; simp at hfb
  rw [if_neg h1] at hfb
  by_cases h2 : req = bytesOfString "source"
  · rw [if_pos h2] at hfb; simp at hfb
  rw [if_neg h2] at hfb
  dsimp only at hfb
  rcases fbFold_spec reqSys (findDashes req).length req (fbScan cat (fbStart req)) with
    ⟨hno, hr⟩ | ⟨m, bb, u, v, hr, hdecomp, hbs, hbd, hm, hmax, hlast⟩
  · rw [hr] at hfb; simp at hfb
  · rw [hr] at hfb
    by_cases hbr : bb.rest = []
    · rw [if_pos hbr] at hfb; simp at hfb
    · rw [if_neg hbr] at hfb
      simp only [Option.some.injEq] at hfb
      subst hfb
      have hbscan : bb ∈ fbScan cat (fbStart req) := by rw [hdecomp]; simp
      have hbcat : bb ∈ cat := List.mem_of_mem_filter hbscan
      have hbpred : fbInRange (fbStart req) bb = true := List.of_mem_filter hbscan
      rw [fbInRange_eq _ _ (hhash bb hbcat)] at hbpred
      simp only [Bool.and_eq_true, Bool.not_eq_true'] at hbpred
      have hstpre : fbStart req <+: req := fbStart_prefix req
      have hstb : fbStart req <+: bb.rest :=
        inRange_prefix (fbStart req) bb.rest hbpred.1 hbpred.2
      have hmb : (fbStart req).length ≤ matchLen req bb.rest :=
        matchLen_prefix_le (fbStart req) req bb.rest hstpre hstb
      have hout : ∀ e ∈ cat, fbInRange (fbStart req) e = false →
          matchLen req e.rest < (fbStart req).length := by
        intro e he hef
        rw [fbInRange_eq _ _ (hhash e he)] at hef
        simp only [Bool.and_eq_false_iff, Bool.not_eq_false'] at hef
        rcases hef with hef | hef
        · exact matchLen_lt_of_low (fbStart req) e.rest req hstpre hef
        · rcases hx : ltB e.rest (fbStart req ++ [255]) with hfalse | htrue
          · exact matchLen_lt_of_high (fbStart req) e.rest req hstpre (hbytes e he) hx
          · rw [hx] at hef; simp at hef
      refine ⟨hbs, hbd, ?_, ?_⟩
      · intro e he hes hed
        by_cases hin : fbInRange (fbStart req) e = true
        · have hescan : e ∈ fbScan cat (fbStart req) := List.mem_filter.mpr ⟨he, hin⟩
          have := hmax e hescan hes hed
          omega
        · have := hout e he (by simpa using hin)
          omega
      · obtain ⟨U, V, hUV, hVf, _⟩ := filter_eq_append_cons cat u bb v hdecomp
        refine ⟨U, V, hUV, ?_⟩
        intro e heV hes hed
        have heCat : e ∈ cat := by rw [hUV]; simp [heV]
        by_cases hin : fbInRange (fbStart req) e = true
        · have : e ∈ v := by rw [← hVf]; exact List.mem_filter.mpr ⟨heV, hin⟩
          have := hlast e this hes hed
          omega
        · have := hout e heCat (by simpa using hin)
          omega

def catW : List btItem :=
  [⟨bytesOfString "pipewire-0.3.69", List.replicate 20 1, 1⟩,
   ⟨bytesOfString "pipewire-0.3.70", List.replicate 20 2, 1⟩,
   ⟨bytesOfString "pipewire-doc-1.0", List.replicate 20 3, 1⟩]

/-- C3 witness: on a three-entry catalog the theorem yields the
adjacent-version entry (longest common prefix, same dash count). -/
theorem findBase_selection_witness :
    (⟨bytesOfString "pipewire-0.3.70", List.replicate 20 2, 1⟩ : btItem).sys = 1
    ∧ (findDashes (bytesOfString "pipewire-0.3.70")).length
        = (findDashes (bytesOfString "pipewire-0.3.71")).length
    ∧ (∀ e ∈ catW, e.sys = 1 →
        (findDashes e.rest).length = (findDashes (bytesOfString "pipewire-0.3.71")).length →
        matchLen (bytesOfString "pipewire-0.3.71") e.rest
          ≤ matchLen (bytesOfString "pipewire-0.3.71") (bytesOfString "pipewire-0.3.70"))
    ∧ (∃ u v, catW = u ++ (⟨bytesOfString "pipewire-0.3.70", List.replicate 20 2, 1⟩ : btItem) :: v
        ∧ ∀ e ∈ v, e.sys = 1 →
          (findDashes e.rest).length = (findDashes (bytesOfString "pipewire-0.3.71")).length →
          matchLen (bytesOfString "pipewire-0.3.71") e.rest
            < matchLen (bytesOfString "pipewire-0.3.71") (bytesOfString "pipewire-0.3.70")) :=
  findBase_selection catW 1 (bytesOfString "pipewire-0.3.71") (by decide) (by decide)
    ⟨bytesOfString "pipewire-0.3.70", List.replicate 20 2, 1⟩ (by decide)

/-- C3 counterexample: `findBase` never compares hashes, so when the
catalog holds the requested package itself (store path
`<base32 of 7-bytes>-git-2.38.5`, the simulation scenario), the
returned base's store hash equals the requested store hash; the
identity rejection lives in the caller (src/subst.go line 455), not in
`findBase`. -/
theorem findBase_returns_identical_hash :
    findBase [⟨bytesOfString "git-2.38.5", List.replicate 20 7, 3⟩] 3
        (bytesOfString "git-2.38.5")
      = some ⟨bytesOfString "git-2.38.5", List.replicate 20 7, 3⟩ := by decide

/-! ## C1: the expander round trip

First: decoding a canonically-encoded metadata record gives the record
back, provided its strings contain no quote byte (the records the
expander emits never do). -/

theorem dropLit_append : ∀ lit r : Bytes, dropLit lit (lit ++ r) = some r := by
  intro lit
  induction lit with
  | nil => intro r; rfl
  | cons c l ih =>
    intro r
    rw [List.cons_append, dropLit, if_pos rfl]
    exact ih r

theorem scanQuote_append : ∀ s r : Bytes, 34 ∉ s → scanQuote (s ++ 34 :: r) = some (s, r) := by
  intro s
  induction s with
  | nil => intro r _; rfl
  | cons c s' ih =>
    intro r hq
    rw [List.cons_append, scanQuote, if_neg (by intro hc; exact hq (hc ▸ List.mem_cons_self c s')),
      ih r (fun h => hq (List.mem_cons_of_mem c h))]

theorem parseQuoted_quote (s r : Bytes) (hq : 34 ∉ s) :
    parseQuoted (quoteB s ++ r) = some (s, r) := by
  have hshape : quoteB s ++ r = 34 :: (s ++ 34 :: r) := by
    rw [quoteB]
    simp
  rw [hshape, parseQuoted, if_pos rfl]
  exact scanQuote_append s r hq

theorem takeWhile_all_append {p : Nat → Bool} : ∀ l r : Bytes, (∀ c ∈ l, p c = true) →
    (∀ c, r.head? = some c → p c = false) →
    (l ++ r).takeWhile p = l ∧ (l ++ r).dropWhile p = r := by
  intro l
  induction l with
  | nil =>
    intro r _ hr
    cases r with
    | nil => exact ⟨rfl, rfl⟩
    | cons c r' =>
      have hc := hr c rfl
      rw [List.nil_append, List.takeWhile_cons, List.dropWhile_cons, hc]
      exact ⟨rfl, rfl⟩
  | cons a l' ih =>
    intro r hl hr
    have ha : p a = true := hl a (List.mem_cons_self a l')
    obtain ⟨h1, h2⟩ := ih r (fun c hc => hl c (List.mem_cons_of_mem a hc)) hr
    rw [List.cons_append, List.takeWhile_cons, List.dropWhile_cons, ha]
    simp [h1, h2]

theorem parseDigits_natDec (n : Nat) : parseDigits (natDec n ++ [125]) = some (n, [125]) := by
  obtain ⟨h1, h2⟩ := takeWhile_all_append (natDec n) [125] (natDec_digits n)
    (fun c hc => by
      simp only [List.head?_cons, Option.some.injEq] at hc
      subst hc; rfl)
  rw [parseDigits]
  simp only [h1, h2]
  rw [if_neg (by simpa using natDec_ne_nil n)]
  rw [digitsVal_natDec]

theorem commaJoin_quote_length : ∀ opts : List Bytes, opts ≠ [] →
    opts.length ≤ (commaJoin (opts.map quoteB)).length := by
  intro opts
  induction opts with
  | nil => intro h; exact absurd rfl h
  | cons x ys ih =>
    intro _
    cases ys with
    | nil => simp [commaJoin, quoteB]
    | cons y ys' =>
      have h1 := ih (by simp)
      have hcj : commaJoin ((x :: y :: ys').map quoteB)
          = quoteB x ++ 44 :: commaJoin ((y :: ys').map quoteB) := rfl
      rw [hcj]
      simp only [List.length_cons, List.length_append, quoteB, List.length_cons] at *
      omega

theorem parseOptsAux_round : ∀ (opts : List Bytes) (fuel : Nat) (r : Bytes),
    opts ≠ [] → (∀ o ∈ opts, 34 ∉ o) → opts.length ≤ fuel →
    parseOptsAux fuel (commaJoin (opts.map quoteB) ++ 93 :: r) = some (opts, r) := by
  intro opts
  induction opts with
  | nil => intro fuel r h; exact absurd rfl h
  | cons x ys ih =>
    intro fuel r _ hq hf
    match fuel with
    | 0 => simp at hf
    | f + 1 =>
      cases ys with
      | nil =>
        have hcj : commaJoin ([x].map quoteB) = quoteB x := rfl
        rw [hcj, parseOptsAux, parseQuoted_quote x (93 :: r) (hq x (List.mem_cons_self x []))]
      | cons y ys' =>
        have hcj : commaJoin ((x :: y :: ys').map quoteB)
            = quoteB x ++ 44 :: commaJoin ((y :: ys').map quoteB) := rfl
        have hshape : (quoteB x ++ 44 :: commaJoin ((y :: ys').map quoteB)) ++ 93 :: r
            = quoteB x ++ (44 :: (commaJoin ((y :: ys').map quoteB) ++ 93 :: r)) := by
          simp
        rw [hcj, hshape, parseOptsAux,
          parseQuoted_quote x _ (hq x (List.mem_cons_self x _))]
        dsimp only
        rw [ih f r (by simp) (fun o ho => hq o (List.mem_cons_of_mem x ho))
            (by simp only [List.length_cons] at hf ⊢; omega)]

theorem parseOpts_round (opts : List Bytes) (r : Bytes) (hne : opts ≠ [])
    (hq : ∀ o ∈ opts, 34 ∉ o) :
    parseOpts (commaJoin (opts.map quoteB) ++ 93 :: r) = some (opts, r) := by
  rw [parseOpts]
  apply parseOptsAux_round opts _ r hne hq
  have h1 := commaJoin_quote_length opts hne
  simp only [List.length_append, List.length_cons]
  omega

theorem dropLit_oc_none (t : Bytes) :
    dropLit (bytesOfString ",\"o\":[") (bytesOfString ",\"c\":" ++ t) = none :=
  rfl

theorem metaParse_metaJson (m : narExpanderMeta) (ha : 34 ∉ m.algo)
    (ho : ∀ o ∈ m.options, 34 ∉ o) : metaParse (metaJson m) = some m := by
  obtain ⟨algo, opts, c⟩ := m
  simp only at ha ho
  cases opts with
  | nil =>
    have hshape : metaJson ⟨algo, [], c⟩ = (123 :: bytesOfString "\"a\":")
        ++ (quoteB algo ++ (bytesOfString ",\"c\":" ++ (natDec c ++ [125]))) := by
      rw [metaJson]
      simp
    rw [metaParse, hshape, dropLit_append]
    dsimp only
    rw [parseQuoted_quote algo _ ha]
    dsimp only
    rw [dropLit_oc_none]
    dsimp only
    rw [dropLit_append]
    dsimp only
    rw [parseDigits_natDec]
    dsimp only
    rw [if_pos rfl]
  | cons o os =>
    have hshape : metaJson ⟨algo, o :: os, c⟩ = (123 :: bytesOfString "\"a\":")
        ++ (quoteB algo ++ (bytesOfString ",\"o\":["
          ++ (commaJoin ((o :: os).map quoteB)
            ++ 93 :: (bytesOfString ",\"c\":" ++ (natDec c ++ [125]))))) := by
      rw [metaJson]
      simp
    rw [metaParse, hshape, dropLit_append]
    dsimp only
    rw [parseQuoted_quote algo _ ha]
    dsimp only
    rw [dropLit_append]
    dsimp only
    rw [parseOpts_round (o :: os) _ (by simp) ho]
    dsimp only
    rw [dropLit_append]
    dsimp only
    rw [parseDigits_natDec]
    dsimp only
    rw [if_pos rfl]

/-! Every option string `parseXz` recovers is quote-free, so the
metadata records the expander emits decode back to themselves. -/

theorem exBind_ok {ε α β : Type} (a : α) (f : α → Except ε β) :
    (Except.ok a >>= f) = f a := rfl

theorem exBind_error {ε α β : Type} (e : ε) (f : α → Except ε β) :
    ((Except.error e : Except ε α) >>= f) = Except.error e := rfl

theorem exBind_pure {ε α β : Type} (a : α) (f : α → Except ε β) :
    ((pure a : Except ε α) >>= f) = f a := rfl

theorem natDec_no_quote (n : Nat) : 34 ∉ natDec n := by
  intro h
  have := natDec_digits n 34 h
  simp [isDigitB] at this

theorem exBind_ok_inv {ε α β : Type} {m : Except ε α} {f : α → Except ε β} {b : β}
    (h : (m >>= f) = .ok b) : ∃ a, m = .ok a ∧ f a = .ok b := by
  cases m with
  | error e => exact Except.noConfusion h
  | ok a => exact ⟨a, rfl, h⟩

theorem lzma2DictOpt_no_quote (b : Nat) (o : Bytes) (h : lzma2DictOpt b = .ok o) : 34 ∉ o := by
  rw [lzma2DictOpt] at h
  split at h
  · exact Except.noConfusion h
  · simp only [Except.ok.injEq] at h
    subst h
    intro hm
    rcases List.mem_append.mp hm with hm | hm
    · revert hm; decide
    · exact natDec_no_quote _ hm

theorem bcjOpt_no_quote (fid : Nat) : 34 ∉ bcjOpt fid := by
  rw [bcjOpt]
  split_ifs <;> decide

theorem checkOpt_no_quote (c : Nat) (o : Bytes) (h : checkOpt c = .ok o) : 34 ∉ o := by
  rw [checkOpt] at h
  split_ifs at h <;>
    simp only [Except.ok.injEq] at h <;>
    subst h <;> decide

theorem parseFilters_noquote (buf : Bytes) : ∀ (nf i : Nat) (opts : List Bytes),
    (∀ o ∈ opts, 34 ∉ o) → ∀ (i' : Nat) (opts' : List Bytes),
    parseFilters buf i nf opts = .ok (i', opts') → ∀ o ∈ opts', 34 ∉ o := by
  intro nf
  induction nf with
  | zero =>
    intro i opts h0 i' opts' hp
    rw [parseFilters] at hp
    simp only [Except.ok.injEq, Prod.mk.injEq] at hp
    exact hp.2 ▸ h0
  | succ k ih =>
    intro i opts h0 i' opts' hp
    rw [parseFilters] at hp
    obtain ⟨p, h1, hp⟩ := exBind_ok_inv hp
    obtain ⟨filterId, l⟩ := p
    try dsimp only at hp
    obtain ⟨q, h2, hp⟩ := exBind_ok_inv hp
    obtain ⟨propSize, l2⟩ := q
    try dsimp only at hp
    split at hp
    · -- lzma2 filter
      split at hp
      · exact Except.noConfusion hp
      · obtain ⟨u, hu, hp⟩ := exBind_ok_inv hp
        try dsimp only at hp
        obtain ⟨pb, h5, hp⟩ := exBind_ok_inv hp
        try dsimp only at hp
        obtain ⟨o, h6, hp⟩ := exBind_ok_inv hp
        try dsimp only at hp
        obtain ⟨y, hy, hp⟩ := exBind_ok_inv hp
        try dsimp only at hp
        injection hy with hy
        subst hy
        refine ih _ _ ?_ i' opts' hp
        intro x hx
        rcases List.mem_append.mp hx with hx | hx
        · exact h0 x hx
        · simp only [List.mem_singleton] at hx
          subst hx
          exact lzma2DictOpt_no_quote pb x h6
    · split at hp
      · -- bcj filter
        obtain ⟨y, hy, hp⟩ := exBind_ok_inv hp
        try dsimp only at hp
        injection hy with hy
        subst hy
        refine ih _ _ ?_ i' opts' hp
        intro x hx
        rcases List.mem_append.mp hx with hx | hx
        · exact h0 x hx
        · simp only [List.mem_singleton] at hx
          subst hx
          exact bcjOpt_no_quote filterId
      · split at hp
        · -- delta filter
          split at hp
          · exact Except.noConfusion hp
          · obtain ⟨u, hu, hp⟩ := exBind_ok_inv hp
            try dsimp only at hp
            obtain ⟨pb, h5, hp⟩ := exBind_ok_inv hp
            try dsimp only at hp
            obtain ⟨y, hy, hp⟩ := exBind_ok_inv hp
            try dsimp only at hp
            injection hy with hy
            subst hy
            refine ih _ _ ?_ i' opts' hp
            intro x hx
            rcases List.mem_append.mp hx with hx | hx
            · exact h0 x hx
            · simp only [List.mem_singleton] at hx
              subst hx
              intro hm
              rcases List.mem_append.mp hm with hm | hm
              · revert hm; decide
              · exact natDec_no_quote _ hm
        · -- unknown filter id: options unchanged
          obtain ⟨y, hy, hp⟩ := exBind_ok_inv hp
          try dsimp only at hp
          injection hy with hy
          subst hy
          exact ih _ _ h0 i' opts' hp

theorem parseXzFooter_options (buf : Bytes) (opts : List Bytes) (info : xzInfo)
    (h : parseXzFooter buf opts = .ok info) : info.options = opts := by
  rw [parseXzFooter] at h
  split at h
  · exact Except.noConfusion h
  · obtain ⟨u1, h1, h⟩ := exBind_ok_inv h
    try dsimp only at h
    split at h
    · exact Except.noConfusion h
    · obtain ⟨u2, h2, h⟩ := exBind_ok_inv h
      try dsimp only at h
      obtain ⟨i0, h3, h⟩ := exBind_ok_inv h
      try dsimp only at h
      split at h
      · exact Except.noConfusion h
      · obtain ⟨u3, h4, h⟩ := exBind_ok_inv h
        try dsimp only at h
        obtain ⟨p, h5, h⟩ := exBind_ok_inv h
        obtain ⟨nRec, l⟩ := p
        try dsimp only at h
        obtain ⟨total, h6, h⟩ := exBind_ok_inv h
        try dsimp only at h
        injection h with h
        subst h
        rfl

theorem parseXz_options_noquote (buf : Bytes) (info : xzInfo)
    (h : parseXz buf = .ok info) : ∀ o ∈ info.options, 34 ∉ o := by
  rw [parseXz] at h
  split at h
  · exact Except.noConfusion h
  · obtain ⟨u1, h1, h⟩ := exBind_ok_inv h
    try dsimp only at h
    obtain ⟨c7, h2, h⟩ := exBind_ok_inv h
    try dsimp only at h
    obtain ⟨copt, h3, h⟩ := exBind_ok_inv h
    try dsimp only at h
    obtain ⟨bFlags, h4, h⟩ := exBind_ok_inv h
    try dsimp only at h
    have tail : ∀ (y : Nat),
        (parseFilters buf y ((bFlags &&& 3) + 1) [copt] >>= fun d => parseXzFooter buf d.2)
          = .ok info → ∀ o ∈ info.options, 34 ∉ o := by
      intro y hy
      obtain ⟨p, h7, hy⟩ := exBind_ok_inv hy
      obtain ⟨j, opts⟩ := p
      try dsimp only at hy
      have hopts := parseFilters_noquote buf ((bFlags &&& 3) + 1) y [copt]
        (by
          intro o ho
          simp only [List.mem_singleton] at ho
          subst ho
          exact checkOpt_no_quote _ _ h3) j opts h7
      rw [parseXzFooter_options buf opts info hy]
      exact hopts
    split at h
    · obtain ⟨d1, h5, h⟩ := exBind_ok_inv h
      try dsimp only at h
      obtain ⟨y1, h5b, h⟩ := exBind_ok_inv h
      try dsimp only at h
      split at h
      · obtain ⟨d2, h6, h⟩ := exBind_ok_inv h
        try dsimp only at h
        obtain ⟨y2, h6b, h⟩ := exBind_ok_inv h
        try dsimp only at h
        exact tail _ h
      · obtain ⟨y2, h6b, h⟩ := exBind_ok_inv h
        try dsimp only at h
        exact tail _ h
    · obtain ⟨y1, h5b, h⟩ := exBind_ok_inv h
      try dsimp only at h
      split at h
      · obtain ⟨d2, h6, h⟩ := exBind_ok_inv h
        try dsimp only at h
        obtain ⟨y2, h6b, h⟩ := exBind_ok_inv h
        try dsimp only at h
        exact tail _ h
      · obtain ⟨y2, h6b, h⟩ := exBind_ok_inv h
        try dsimp only at h
        exact tail _ h



/-! ## The expander round trip (`ExpandNar` then `CollapseNar`) -/

/-- A regular `.xz` member is acceptable to the round trip: either the
container fails to parse cleanly (and is passed through), or it parses
in bounds and the external tools invert it at the recorded size. -/
def xzOKb (t : extTools) (b : Bytes) : Bool :=
  match parseXz b with
  | .error .outOfBounds => false
  | .error .badData => true
  | .ok info =>
      (t.xzC info.options (t.xzD b) == b) && ((t.xzD b).length == info.uncompressedSize)

/-- A regular `.gz` member is acceptable: either the strict header gate
rejects it (pass-through), or the tools invert it and the trailing
ISIZE field matches the decompressed length. -/
def gzOKb (t : extTools) (b : Bytes) : Bool :=
  decide (b.length < 18) || (b.take 10 != gzStrictHeader) ||
    ((t.gzC (t.gzD b) == b) && ((t.gzD b).length == le32 (b.drop (b.length - 4))))

/-- Well-formedness of one archive entry for the round trip: a regular
entry delivers exactly its declared size, does not already carry the
expander meta suffix, and its xz/gz payload satisfies the external-tool
round-trip conditions. -/
def entOKb (t : extTools) (e : narEnt) : Bool :=
  e.typ != .regular ||
    ((e.data.length == e.size) &&
     (!hasSuffixB e.path narExpMetaSuffix) &&
     (!hasSuffixB e.path extXz || xzOKb t e.data) &&
     (!hasSuffixB e.path extGz || gzOKb t e.data))

/-- Entries that are directories, symlinks, or regular files without the
meta suffix collapse by passing through unchanged. -/
theorem readAndCollapse_cons_pass (t : extTools) (e : narEnt) (l : List narEnt)
    (he : (e.typ = .dir ∨ e.typ = .symlink) ∨ hasSuffixB e.path narExpMetaSuffix = false) :
    readAndCollapse t (e :: l) = (readAndCollapse t l).map (e :: ·) := by
  cases l with
  | nil =>
    rw [readAndCollapse, readAndCollapse]
    rcases he with he | he
    · rw [if_pos he]
      rfl
    · by_cases hd : e.typ = .dir ∨ e.typ = .symlink
      · rw [if_pos hd]
        rfl
      · rw [if_neg hd, if_neg (by simp [he])]
        rfl
  | cons d rest =>
    rw [readAndCollapse]
    rcases he with he | he
    · rw [if_pos he]
    · by_cases hd : e.typ = .dir ∨ e.typ = .symlink
      · rw [if_pos hd]
      · rw [if_neg hd, if_neg (by simp [he])]

/-- A pass-through entry extends any round-trip triple. -/
theorem expand_collapse_pass (t : extTools) (e : narEnt) (A EA : List narEnt)
    (hee : expandEntry t e = .ok [e])
    (hE : readAndExpand t A = .ok EA)
    (hW : EA.all (fun x => x.typ ≠ .regular || x.data.length == x.size) = true)
    (hC : readAndCollapse t EA = .ok A)
    (hpm : (e.typ = .dir ∨ e.typ = .symlink) ∨ hasSuffixB e.path narExpMetaSuffix = false)
    (hsz : e.typ = .regular → e.data.length = e.size) :
    readAndExpand t (e :: A) = .ok (e :: EA) ∧
      (e :: EA).all (fun x => x.typ ≠ .regular || x.data.length == x.size) = true ∧
      readAndCollapse t (e :: EA) = .ok (e :: A) := by
  refine ⟨?_, ?_, ?_⟩
  · rw [readAndExpand, hee, hE]
    rfl
  · simp only [List.all_cons, hW, Bool.and_true]
    by_cases ht : e.typ = .regular
    · simp [hsz ht]
    · simp [ht]
  · rw [readAndCollapse_cons_pass t e EA hpm, hC]
    rfl

/-- The round-trip invariant, by induction over the archive: expansion
succeeds, the expanded stream passes the size check of the serializer,
and collapsing it restores the archive. -/
theorem expand_collapse_list (t : extTools) : ∀ (A : List narEnt),
    (∀ e ∈ A, entOKb t e = true) →
    ∃ EA, readAndExpand t A = .ok EA ∧
      EA.all (fun x => x.typ ≠ .regular || x.data.length == x.size) = true ∧
      readAndCollapse t EA = .ok A := by
  intro A
  induction A with
  | nil => intro _; exact ⟨[], rfl, rfl, rfl⟩
  | cons e A ih =>
    intro hok
    obtain ⟨EA, hE, hW, hC⟩ := ih fun x hx => hok x (List.mem_cons_of_mem e hx)
    have hok_e := hok e (List.mem_cons_self e A)
    by_cases hd : e.typ = .dir ∨ e.typ = .symlink
    · have hee : expandEntry t e = .ok [e] := by rw [expandEntry, if_pos hd]
      have hsz : e.typ = .regular → e.data.length = e.size := by
        intro ht
        rcases hd with h | h <;> rw [ht] at h <;> cases h
      obtain ⟨g1, g2, g3⟩ := expand_collapse_pass t e A EA hee hE hW hC (Or.inl hd) hsz
      exact ⟨e :: EA, g1, g2, g3⟩
    · have htyp : e.typ = .regular := by
        cases htt : e.typ <;> simp_all
      rw [entOKb, htyp] at hok_e
      simp only [bne_self_eq_false, Bool.false_or] at hok_e
      rw [Bool.and_eq_true, Bool.and_eq_true, Bool.and_eq_true] at hok_e
      obtain ⟨⟨⟨hlen0, hmeta0⟩, hxzc0⟩, hgzc0⟩ := hok_e
      have hlen : e.data.length = e.size := beq_iff_eq.mp hlen0
      have hmeta : hasSuffixB e.path narExpMetaSuffix = false := by
        cases hcase : hasSuffixB e.path narExpMetaSuffix
        · rfl
        · rw [hcase] at hmeta0
          exact absurd hmeta0 (by simp)
      by_cases hxz : hasSuffixB e.path extXz = true
      · have hxzok : xzOKb t e.data = true := by
          rw [hxz] at hxzc0
          simpa using hxzc0
        cases hparse : parseXz e.data with
        | error f =>
          cases f with
          | badData =>
            have hee : expandEntry t e = .ok [e] := by
              rw [expandEntry, if_neg (by simp [htyp]), if_pos hxz, hparse]
            obtain ⟨g1, g2, g3⟩ := expand_collapse_pass t e A EA hee hE hW hC
              (Or.inr hmeta) (fun _ => hlen)
            exact ⟨e :: EA, g1, g2, g3⟩
          | outOfBounds =>
            exfalso
            unfold xzOKb at hxzok
            rw [hparse] at hxzok
            exact absurd hxzok (by simp)
        | ok info =>
          unfold xzOKb at hxzok
          rw [hparse] at hxzok
          simp only [Bool.and_eq_true, beq_iff_eq] at hxzok
          obtain ⟨hrt, hds⟩ := hxzok
          have hq := parseXz_options_noquote e.data info hparse
          have hmp : metaParse (metaJson ⟨bytesOfString "xz", info.options, e.size⟩) =
              some ⟨bytesOfString "xz", info.options, e.size⟩ :=
            metaParse_metaJson ⟨bytesOfString "xz", info.options, e.size⟩
              (by show (34 : Nat) ∉ bytesOfString "xz"; decide) hq
          have hee : expandEntry t e = .ok
              [{ e with path := e.path ++ narExpMetaSuffix,
                        size := (metaJson ⟨bytesOfString "xz", info.options, e.size⟩).length,
                        data := metaJson ⟨bytesOfString "xz", info.options, e.size⟩ },
               { e with path := e.path ++ narExpDataSuffix, size := info.uncompressedSize,
                        data := t.xzD e.data }] := by
            rw [expandEntry, if_neg (by simp [htyp]), if_pos hxz, hparse]
          refine ⟨({ e with
              path := e.path ++ narExpMetaSuffix
              size := (metaJson ⟨bytesOfString "xz", info.options, e.size⟩).length
              data := metaJson ⟨bytesOfString "xz", info.options, e.size⟩ } : narEnt) ::
            ({ e with
              path := e.path ++ narExpDataSuffix
              size := info.uncompressedSize
              data := t.xzD e.data } : narEnt) :: EA, ?_, ?_, ?_⟩
          · rw [readAndExpand, hee, hE]
            rfl
          · simp only [List.all_cons, hW, Bool.and_true, Bool.and_eq_true]
            refine ⟨by simp [htyp], by simp [htyp, hds]⟩
          · rw [readAndCollapse, if_neg (by simp [htyp]),
              if_pos (by simp [hasSuffixB_append])]
            try dsimp only
            rw [hmp]
            try dsimp only
            rw [if_neg (by simp [hasSuffixB_append]), if_pos rfl, hC]
            try dsimp only
            rw [stripSuffixB_append, hrt]
            rfl
      · by_cases hgzs : hasSuffixB e.path extGz = true
        · have hgzok : gzOKb t e.data = true := by
            rw [hgzs] at hgzc0
            simpa using hgzc0
          by_cases hgate : e.data.length < 18 ∨ e.data.take 10 ≠ gzStrictHeader
          · have hee : expandEntry t e = .ok [e] := by
              rw [expandEntry, if_neg (by simp [htyp]), if_neg hxz, if_pos hgzs, if_pos hgate]
            obtain ⟨g1, g2, g3⟩ := expand_collapse_pass t e A EA hee hE hW hC
              (Or.inr hmeta) (fun _ => hlen)
            exact ⟨e :: EA, g1, g2, g3⟩
          · have hee : expandEntry t e = .ok
                [{ e with path := e.path ++ narExpMetaSuffix,
                          size := (metaJson ⟨bytesOfString "gz", [], e.size⟩).length,
                          data := metaJson ⟨bytesOfString "gz", [], e.size⟩ },
                 { e with path := e.path ++ narExpDataSuffix,
                          size := le32 (e.data.drop (e.data.length - 4)),
                          data := t.gzD e.data }] := by
              rw [expandEntry, if_neg (by simp [htyp]), if_neg hxz, if_pos hgzs, if_neg hgate]
            push_neg at hgate
            obtain ⟨hg1, hg2⟩ := hgate
            have hrt : t.gzC (t.gzD e.data) = e.data ∧
                (t.gzD e.data).length = le32 (e.data.drop (e.data.length - 4)) := by
              unfold gzOKb at hgzok
              simp only [Bool.or_eq_true, decide_eq_true_eq, bne_iff_ne, ne_eq,
                Bool.and_eq_true, beq_iff_eq] at hgzok
              rcases hgzok with (h | h) | h
              · exact absurd h (Nat.not_lt.mpr hg1)
              · exact absurd hg2 h
              · exact h
            have hmp : metaParse (metaJson ⟨bytesOfString "gz", [], e.size⟩) =
                some ⟨bytesOfString "gz", [], e.size⟩ :=
              metaParse_metaJson ⟨bytesOfString "gz", [], e.size⟩
                (by show (34 : Nat) ∉ bytesOfString "gz"; decide) (by simp)
            refine ⟨({ e with
                path := e.path ++ narExpMetaSuffix
                size := (metaJson ⟨bytesOfString "gz", [], e.size⟩).length
                data := metaJson ⟨bytesOfString "gz", [], e.size⟩ } : narEnt) ::
              ({ e with
                path := e.path ++ narExpDataSuffix
                size := le32 (e.data.drop (e.data.length - 4))
                data := t.gzD e.data } : narEnt) :: EA, ?_, ?_, ?_⟩
            · rw [readAndExpand, hee, hE]
              rfl
            · simp only [List.all_cons, hW, Bool.and_true, Bool.and_eq_true]
              refine ⟨by simp [htyp], by simp [htyp, hrt.2]⟩
            · rw [readAndCollapse, if_neg (by simp [htyp]),
                if_pos (by simp [hasSuffixB_append])]
              try dsimp only
              rw [hmp]
              try dsimp only
              rw [if_neg (by simp [hasSuffixB_append]), if_neg (by decide), if_pos rfl, hC]
              try dsimp only
              rw [stripSuffixB_append, hrt.1]
              rfl
        · have hee : expandEntry t e = .ok [e] := by
            rw [expandEntry, if_neg (by simp [htyp]), if_neg hxz, if_neg hgzs]
          obtain ⟨g1, g2, g3⟩ := expand_collapse_pass t e A EA hee hE hW hC
            (Or.inr hmeta) (fun _ => hlen)
          exact ⟨e :: EA, g1, g2, g3⟩

/-- C1 (corrected): for every archive of directories, symlinks, and
regular files whose regular entries deliver exactly their declared
size, do not already end in the expander's reserved meta suffix
`"\x01_exp1meta_"`, and whose `.xz`/`.gz` members either fail their
respective gates (pass-through) or are inverted by the external
compressors at the recorded sizes, piping the archive through
`ExpandNar` and then `CollapseNar` returns exactly the original
archive. -/
theorem expand_collapse_roundtrip (t : extTools) (A : List narEnt)
    (hok : ∀ e ∈ A, entOKb t e = true) :
    (ExpandNar t A) >>= CollapseNar t = .ok A := by
  obtain ⟨EA, hE, hW, hC⟩ := expand_collapse_list t A hok
  have hall : A.all (fun e => e.typ ≠ .regular || e.data.length == e.size) = true := by
    refine List.all_eq_true.mpr fun e he => ?_
    have h := hok e he
    by_cases ht : e.typ = .regular
    · rw [entOKb, ht] at h
      simp only [bne_self_eq_false, Bool.false_or] at h
      rw [Bool.and_eq_true, Bool.and_eq_true, Bool.and_eq_true] at h
      simp [ht, h.1.1.1]
    · simp [ht]
  have hwa : writeEnts A = .ok A := by rw [writeEnts, if_pos hall]
  have hwe : writeEnts EA = .ok EA := by rw [writeEnts, if_pos hW]
  rw [ExpandNar, hE, exBind_ok, hwe, exBind_ok, CollapseNar, hC, exBind_ok, hwa]

def evilMetaW : Bytes := metaJson ⟨bytesOfString "gz", [], 0⟩

/-- A perfectly ordinary regular file — except that its name ends in
the expander's reserved meta suffix. -/
def evilEntW : narEnt :=
  ⟨.regular, bytesOfString "f" ++ narExpMetaSuffix, [], false, evilMetaW.length, evilMetaW⟩

/-- A 33-byte xz container and its decompressed form, an 18-byte gzip
member passing the strict gate and its decompressed form. -/
def xzTW : Bytes := xzDictTemplate 0

def xzPlainW : Bytes := [9, 9, 9, 9, 9, 9, 9]

def gzTW : Bytes := [0x1f, 0x8b, 8, 0, 0, 0, 0, 0, 0, 3, 7, 7, 7, 7, 1, 0, 0, 0]

def gzPlainW : Bytes := [42]

/-- Concrete stand-ins for the external xz/gzip processes, inverting
each other on the test payloads. -/
def toolsW : extTools :=
  ⟨fun b => if b = xzTW then xzPlainW else b,
   fun _ b => if b = xzPlainW then xzTW else b,
   fun b => if b = gzTW then gzPlainW else b,
   fun b => if b = gzPlainW then gzTW else b⟩

/-- C1 counterexample: an archive of one regular file whose body is
exactly its declared size and which contains no xz or gz member at all
— so it satisfies the claim's hypotheses — yet the collapse of its
expansion fails with an error instead of reproducing the archive,
because the file name ends in the reserved meta suffix. -/
theorem expand_collapse_not_universal :
    (∀ e ∈ [evilEntW], e.typ = .regular ∧ e.data.length = e.size ∧
        hasSuffixB e.path extXz = false ∧ hasSuffixB e.path extGz = false) ∧
    ((ExpandNar toolsW [evilEntW]) >>= CollapseNar toolsW) = .error "unexpected EOF" := by
  decide

def arcW : List narEnt :=
  [⟨.dir, bytesOfString "d", [], false, 0, []⟩,
   ⟨.symlink, bytesOfString "d/l", bytesOfString "tgt", false, 0, []⟩,
   ⟨.regular, bytesOfString "d/plain", [], false, 3, [1, 2, 3]⟩,
   ⟨.regular, bytesOfString "d/a.xz", [], false, 33, xzTW⟩,
   ⟨.regular, bytesOfString "d/bad.xz", [], true, 3, [1, 2, 3]⟩,
   ⟨.regular, bytesOfString "d/b.gz", [], false, 18, gzTW⟩,
   ⟨.regular, bytesOfString "d/bad.gz", [], false, 18, List.replicate 18 0⟩]

/-- Witness: the round trip on a concrete archive exercising every
branch — directory, symlink, plain file, expandable xz, pass-through
xz, expandable gz, and a gate-rejected gz. -/
theorem expand_collapse_roundtrip_witness :
    (∀ e ∈ arcW, entOKb toolsW e = true) ∧
      ((ExpandNar toolsW arcW) >>= CollapseNar toolsW) = .ok arcW :=
  ⟨by decide, expand_collapse_roundtrip toolsW arcW (by decide)⟩

end NixSandwich
